import Mathlib

/-!
Verification of the shredded-document reconstruction core
(`surprise_manager.py`, `surprise_manager_new.py`, `surprise_manager_opti.py`).

The Python code is shallowly embedded:
* float values become elements of a linear ordered field `α` (`ℚ` or `ℝ`);
* `float('inf')` entries of the cost matrix become `⊤ : WithTop α`;
* the float results of subtracting possibly infinite costs (which can be
  `-inf`, `+inf` or `nan` in Python) become the four-constructor type `Fl`;
* Python exceptions become `Except Unit`;
* the unbounded `while improved:` loop of the 2-opt refiner becomes a
  fuel-indexed recursion (`twoOptAux`), with convergence expressed by
  `twoOptConv`/`TwoOptTerminates`.
-/

section TwoOptCore

variable {α : Type} [LinearOrderedField α]

/-- The fixed tolerance `self.epsilon = 1e-9` of `surprise_manager_new.py`. -/
def eps9 (α : Type) [LinearOrderedField α] : α := 1 / 1000000000

/-- Result of subtracting two possibly-infinite float costs: finite, `-inf`,
`+inf`, or `nan` (the latter from `inf - inf`). -/
inductive Fl (α : Type) where
  | nan : Fl α
  | ninf : Fl α
  | pinf : Fl α
  | fin : α → Fl α
deriving DecidableEq

/-- Python float `<` on `Fl` values: any comparison with `nan` is false. -/
def flLtB : Fl α → Fl α → Bool
  | Fl.nan, _ => false
  | _, Fl.nan => false
  | Fl.ninf, Fl.ninf => false
  | Fl.ninf, _ => true
  | _, Fl.ninf => false
  | Fl.pinf, _ => false
  | Fl.fin _, Fl.pinf => true
  | Fl.fin a, Fl.fin b => decide (a < b)

/-- Python float subtraction of two `WithTop` costs (`cost_after - cost_before`). -/
def fsub : WithTop α → WithTop α → Fl α
  | (a : α), (b : α) => Fl.fin (a - b)
  | ⊤, (_ : α) => Fl.pinf
  | (_ : α), ⊤ => Fl.ninf
  | ⊤, ⊤ => Fl.nan

/-- `_calculate_total_path_cost`: sum of `matrix[p[k]][p[k+1]]` over consecutive
positions (`inf` entries propagate to an `inf` total, as in the Python early
return). -/
def pathCost (M : ℕ → ℕ → WithTop α) : List ℕ → WithTop α
  | [] => 0
  | [_] => 0
  | a :: b :: t => M a b + pathCost M (b :: t)

/-- The 2-opt mutation `p[:i+1] + reversed(p[i+1:j+1]) + p[j+1:]`. -/
def reverseSegment (p : List ℕ) (i j : ℕ) : List ℕ :=
  p.take (i + 1) ++ ((p.drop (i + 1)).take (j - i)).reverse ++ p.drop (j + 1)

/-- One (i, j) check of `_apply_2_opt`: accept the segment reversal when
`delta < min_delta and delta < -epsilon`, carrying state
`(permutation, min_delta, improved)`. -/
def twoStep (M : ℕ → ℕ → WithTop α) (eps : α) (i j : ℕ)
    (st : List ℕ × Fl α × Bool) : List ℕ × Fl α × Bool :=
  match st with
  | (p, md, imp) =>
    let a := p.getD i 0
    let b := p.getD (i + 1) 0
    let c := p.getD j 0
    let d := p.getD (j + 1) 0
    let delta := fsub (M a c + M b d) (M a b + M c d)
    if flLtB delta md && flLtB delta (Fl.fin (-eps)) then
      (reverseSegment p i j, delta, true)
    else
      (p, md, imp)

/-- The inner `for j in range(i + 2, num_strips - 1)` loop.  The first
argument is structural-recursion fuel; any fuel at least `n - 1 - j` (in
particular `n`, used at every call site) runs the loop to its end, so the fuel
is only a recursion device and not an observable bound. -/
def scanJ (M : ℕ → ℕ → WithTop α) (eps : α) (n i : ℕ) :
    ℕ → ℕ → List ℕ × Fl α × Bool → List ℕ × Fl α × Bool
  | 0, _, st => st
  | Nat.succ k, j, st =>
    if j < n - 1 then scanJ M eps n i k (j + 1) (twoStep M eps i j st) else st

/-- The outer `for i in range(num_strips - 2)` loop, fuelled like `scanJ`. -/
def scanI (M : ℕ → ℕ → WithTop α) (eps : α) (n : ℕ) :
    ℕ → ℕ → List ℕ × Fl α × Bool → List ℕ × Fl α × Bool
  | 0, _, st => st
  | Nat.succ k, i, st =>
    if i < n - 2 then scanI M eps n k (i + 1) (scanJ M eps n i n (i + 2) st) else st

/-- One full body of the `while improved:` loop (a complete double scan with
`min_delta` reset to `0.0` and `improved` reset to `False`). -/
def twoOptPass (M : ℕ → ℕ → WithTop α) (eps : α) (n : ℕ) (p : List ℕ) :
    List ℕ × Fl α × Bool :=
  scanI M eps n n 0 (p, Fl.fin 0, false)

/-- The `while improved:` loop of `_apply_2_opt`, indexed by fuel; with fuel
exhausted the current permutation is returned. -/
def twoOptAux (M : ℕ → ℕ → WithTop α) (eps : α) (n : ℕ) : ℕ → List ℕ → List ℕ
  | 0, p => p
  | Nat.succ f, p =>
    match twoOptPass M eps n p with
    | (q, _, imp) => if imp then twoOptAux M eps n f q else p

/-- `_apply_2_opt`: identity for fewer than 4 strips, otherwise the scan loop. -/
def twoOpt (M : ℕ → ℕ → WithTop α) (eps : α) (n fuel : ℕ) (p : List ℕ) : List ℕ :=
  if n < 4 then p else twoOptAux M eps n fuel p

/-- Convergence-observing variant of the loop: `some` when a pass makes no
improvement within the given fuel, `none` when fuel runs out first. -/
def twoOptConv (M : ℕ → ℕ → WithTop α) (eps : α) (n : ℕ) :
    ℕ → List ℕ → Option (List ℕ)
  | 0, _ => none
  | Nat.succ f, p =>
    match twoOptPass M eps n p with
    | (q, _, imp) => if imp then twoOptConv M eps n f q else some p

/-- The `while improved:` loop terminates on input `p`. -/
def TwoOptTerminates (M : ℕ → ℕ → WithTop α) (eps : α) (n : ℕ) (p : List ℕ) : Prop :=
  ∃ F r, twoOptConv M eps n F p = some r

end TwoOptCore

section Greedy

variable {α : Type} [LinearOrderedAddCommMonoid α]

/-- One iteration of the `for k_idx in range(num_slices)` candidate scan:
skip used ids, keep `(best_next_slice_idx, min_connection_cost)` updated on a
strict `<` comparison. -/
def pickStep (M : ℕ → ℕ → WithTop α) (last : ℕ) (used : List ℕ)
    (acc : Option ℕ × WithTop α) (k : ℕ) : Option ℕ × WithTop α :=
  if k ∈ used then acc
  else if M last k < acc.2 then (some k, M last k) else acc

/-- The candidate scan over `range(num_slices)`, starting from
`best = -1, min = inf` (modelled `(none, ⊤)`). -/
def greedyPick (M : ℕ → ℕ → WithTop α) (n last : ℕ) (used : List ℕ) :
    Option ℕ × WithTop α :=
  (List.range n).foldl (pickStep M last used) (none, ⊤)

/-- The `while len(chain) < n` growth loop, fuel-indexed (fuel `n` suffices). -/
def buildChainAux (M : ℕ → ℕ → WithTop α) (n : ℕ) :
    ℕ → List ℕ → ℕ → WithTop α → List ℕ × WithTop α
  | 0, chain, _, tot => (chain, tot)
  | Nat.succ f, chain, last, tot =>
    if chain.length < n then
      match greedyPick M n last chain with
      | (some k, c) => buildChainAux M n f (chain ++ [k]) k (tot + c)
      | (none, _) => (chain, tot)
    else (chain, tot)

/-- The chain grown greedily from start id `s`. -/
def buildChain (M : ℕ → ℕ → WithTop α) (n s : ℕ) : List ℕ × WithTop α :=
  buildChainAux M n n [s] s 0

/-- One iteration of the start loop: keep the new chain when it is complete
(`len == num_slices`) and strictly cheaper than the best so far. -/
def bestStep (M : ℕ → ℕ → WithTop α) (n : ℕ) (best : List ℕ × WithTop α) (s : ℕ) :
    List ℕ × WithTop α :=
  if (buildChain M n s).1.length = n ∧ (buildChain M n s).2 < best.2 then buildChain M n s
  else best

/-- The `for start_slice_original_idx in range(num_slices)` loop: keep the
cheapest complete chain; `[]` when no start completes. -/
def greedyBest (M : ℕ → ℕ → WithTop α) (n : ℕ) : List ℕ :=
  ((List.range n).foldl (bestStep M n) ([], ⊤)).1

end Greedy

section SpecPolicy

variable {α : Type} [LinearOrderedField α]

/-- The acceptance test of `twoStep` with `min_delta` still at its reset value
`0.0`: this is exactly "the move is strictly improving beyond tolerance". -/
def acceptB (M : ℕ → ℕ → WithTop α) (eps : α) (p : List ℕ) (i j : ℕ) : Bool :=
  let delta := fsub (M (p.getD i 0) (p.getD j 0) + M (p.getD (i + 1) 0) (p.getD (j + 1) 0))
    (M (p.getD i 0) (p.getD (i + 1) 0) + M (p.getD j 0) (p.getD (j + 1) 0))
  flLtB delta (Fl.fin 0) && flLtB delta (Fl.fin (-eps))

/-- First `j ≥ j₀` (with `j < n - 1`) whose move at `(i, j)` is accepted from a
fresh `min_delta = 0` state (fuelled like `scanJ`). -/
def findJ (M : ℕ → ℕ → WithTop α) (eps : α) (n i : ℕ) (p : List ℕ) :
    ℕ → ℕ → Option ℕ
  | 0, _ => none
  | Nat.succ k, j =>
    if j < n - 1 then
      if acceptB M eps p i j then some j else findJ M eps n i p k (j + 1)
    else none

/-- First `(i, j)` in the scan order (`i` ascending, then `j` ascending) whose
move is strictly improving beyond tolerance. -/
def findI (M : ℕ → ℕ → WithTop α) (eps : α) (n : ℕ) (p : List ℕ) :
    ℕ → ℕ → Option (ℕ × ℕ)
  | 0, _ => none
  | Nat.succ k, i =>
    if i < n - 2 then
      match findJ M eps n i p n (i + 2) with
      | some j => some (i, j)
      | none => findI M eps n p k (i + 1)
    else none

/-- The lexicographically first strictly-improving move of the whole scan. -/
def firstMove (M : ℕ → ℕ → WithTop α) (eps : α) (n : ℕ) (p : List ℕ) :
    Option (ℕ × ℕ) :=
  findI M eps n p n 0

/-- Modelled from the spec: the first-improvement policy of section 4.4, which
applies the first strictly-improving move found scanning `i` ascending then `j`
ascending and then restarts the scan from the beginning of the mutated
permutation; used only to compare the code against the claimed policy. -/
def specRestartTwoOpt (M : ℕ → ℕ → WithTop α) (eps : α) (n : ℕ) :
    ℕ → List ℕ → List ℕ
  | 0, p => p
  | Nat.succ f, p =>
    if n < 4 then p
    else
      match firstMove M eps n p with
      | some (i, j) => specRestartTwoOpt M eps n f (reverseSegment p i j)
      | none => p

end SpecPolicy

section ConcreteMatrices

/-- Cost matrix showing that an accepted asymmetric 2-opt move can raise the
total path cost (used against C3). -/
def mc3 : ℕ → ℕ → WithTop ℚ := fun i j =>
  (((([[1000, 10, 50, 0, 1000],
      [1000, 1000, 0, 50, 0],
      [1000, 100, 1000, 0, 60],
      [1000, 60, 100, 1000, 10],
      [1000, 1000, 1000, 1000, 1000]] : List (List ℚ)).getD i []).getD j 1000 : ℚ) : WithTop ℚ)

/-- Cost matrix on which the 2-opt pass sequence cycles with period 4
(used against C4). -/
def mc4 : ℕ → ℕ → WithTop ℚ := fun i j =>
  (((([[1000, 100, 100, 98, 1000],
      [1000, 1000, 60, 120, 51],
      [1000, 100, 1000, 100, 60],
      [1000, 88, 92, 1000, 50],
      [1000, 1000, 1000, 1000, 1000]] : List (List ℚ)).getD i []).getD j 1000 : ℚ) : WithTop ℚ)

/-- Cost matrix on which the code's scan-continuation policy and the spec's
restart-on-first-improvement policy produce different outputs (used against C5). -/
def mc5 : ℕ → ℕ → WithTop ℚ := fun i j =>
  (((([[100, 10, 9, 9, 100],
      [100, 100, 10, 9, 7],
      [100, 10, 100, 10, 9],
      [100, 5, 10, 100, 10],
      [100, 100, 100, 100, 100]] : List (List ℚ)).getD i []).getD j 1000 : ℚ) : WithTop ℚ)

end ConcreteMatrices

section MatrixPredicates

variable {α : Type} [LinearOrderedField α]

/-- The cost matrix is symmetric. -/
def SymMat (M : ℕ → ℕ → WithTop α) : Prop := ∀ x y, M x y = M y x

/-- Every entry of the cost matrix is finite. -/
def FinMat (M : ℕ → ℕ → WithTop α) : Prop := ∀ x y, M x y ≠ ⊤

end MatrixPredicates

section SadPipeline

/-- An RGB pixel, each channel an integer (0..255 in practice). -/
abbrev RGBT := ℤ × ℤ × ℤ

/-- Per-row summand of the SAD metric: sum of per-channel absolute differences. -/
def sadRow (p q : RGBT) : ℤ :=
  |p.1 - q.1| + |p.2.1 - q.2.1| + |p.2.2 - q.2.2|

/-- `_calculate_edge_difference` of `surprise_manager.py`: raises (`error`)
when either edge list length differs from the `height` argument, otherwise
sums `sadRow` over rows `0..height-1`. -/
def sadDiff (e1 e2 : List RGBT) (hgt : ℕ) : Except Unit ℤ :=
  if e1.length ≠ hgt ∨ e2.length ≠ hgt then .error ()
  else .ok (((List.range hgt).map
    (fun y => sadRow (e1.getD y (0, 0, 0)) (e2.getD y (0, 0, 0)))).sum)

/-- `_calculate_edge_difference_numpy` of `surprise_manager_opti.py`:
`np.sum(np.abs(a - b))` on arrays of shape `(len, 3)`; numpy broadcasting makes
this succeed when the lengths agree or either length is 1, and raise a
broadcast `ValueError` otherwise.  (float32 arithmetic on 0..255 integers is
exact, so the value is modelled in `ℤ`.) -/
def sadNumpy (e1 e2 : List RGBT) : Except Unit ℤ :=
  if e1.length = e2.length then .ok ((List.zipWith sadRow e1 e2).sum)
  else if e1.length = 1 then .ok ((e2.map (fun q => sadRow (e1.getD 0 (0, 0, 0)) q)).sum)
  else if e2.length = 1 then .ok ((e1.map (fun p => sadRow p (e2.getD 0 (0, 0, 0)))).sum)
  else .error ()

/-- Result of `_get_edges_from_image_bytes` for one successfully decoded strip:
left and right edge pixel columns and the reported image height. -/
structure StripRGB where
  left : List RGBT
  right : List RGBT
  h : ℕ
deriving DecidableEq

instance : Inhabited StripRGB := ⟨⟨[], [], 0⟩⟩

/-- The extraction loop of `surprise_manager.surprise`: a `none` input models a
slice whose decoding raised; the first decoded height becomes `common_height`
and any later disagreeing height aborts (both abort cases return `none`, which
the caller turns into the identity fallback). -/
def extractRGBAux : List (Option StripRGB) → Option ℕ → List StripRGB →
    Option (List StripRGB × ℕ)
  | [], ch, acc => ch.map (fun hgt => (acc, hgt))
  | none :: _, _, _ => none
  | some s :: rest, none, acc => extractRGBAux rest (some s.h) (acc ++ [s])
  | some s :: rest, some hgt, acc =>
    if s.h = hgt then extractRGBAux rest (some hgt) (acc ++ [s]) else none

/-- Extraction over the whole request. -/
def extractRGB (inputs : List (Option StripRGB)) : Option (List StripRGB × ℕ) :=
  extractRGBAux inputs none []

/-- No `sadDiff` call of the cost-matrix build raises: every ordered pair of
distinct ids has edges of the common height. -/
def sadOk (strips : List StripRGB) (n hgt : ℕ) : Prop :=
  ∀ i < n, ∀ j < n, i ≠ j →
    ((strips.getD i default).right.length = hgt ∧ (strips.getD j default).left.length = hgt)

instance (strips : List StripRGB) (n hgt : ℕ) : Decidable (sadOk strips n hgt) := by
  unfold sadOk; infer_instance

/-- The cost-matrix build of `surprise_manager.surprise` (outside any
`try`, so a raising `sadDiff` propagates): diagonal stays `inf`, entry `(i, j)`
is the SAD of strip `i`'s right edge against strip `j`'s left edge. -/
def buildMatrixSad (strips : List StripRGB) (n hgt : ℕ) :
    Except Unit (ℕ → ℕ → WithTop ℤ) :=
  if sadOk strips n hgt then
    .ok (fun i j =>
      if i = j ∨ n ≤ i ∨ n ≤ j then ⊤
      else
        match sadDiff (strips.getD i default).right (strips.getD j default).left hgt with
        | .ok v => (v : WithTop ℤ)
        | .error _ => ⊤)
  else .error ()

/-- `SurpriseManager.surprise` of `surprise_manager.py`.  The input list holds
the decode outcome of each slice (`none` = decoding raised).  Early returns for
0 or 1 slices; identity fallback on decode failure, height mismatch, falsy
(zero) common height, or an empty greedy result; the cost-matrix build may
raise, which escapes as `.error`. -/
def sadSurprise (inputs : List (Option StripRGB)) : Except Unit (List ℕ) :=
  let n := inputs.length
  if n = 0 then .ok []
  else if n = 1 then .ok [0]
  else
    match extractRGB inputs with
    | none => .ok (List.range n)
    | some (strips, hgt) =>
      if hgt = 0 then .ok (List.range n)
      else
        match buildMatrixSad strips n hgt with
        | .error _ => .error ()
        | .ok M =>
          let best := greedyBest M n
          if best = [] then .ok (List.range n) else .ok best

end SadPipeline

section NccPipeline

/-- `np.mean` of a list of grayscale samples. -/
noncomputable def lmean (l : List ℝ) : ℝ := l.sum / l.length

/-- `np.std` (population standard deviation) of a list of grayscale samples. -/
noncomputable def lstd (l : List ℝ) : ℝ :=
  Real.sqrt ((l.map (fun x => (x - lmean l) ^ 2)).sum / l.length)

/-- `np.clip(x, -1.0, 1.0)`. -/
noncomputable def clampR (x : ℝ) : ℝ := max (-1) (min x 1)

/-- `_calculate_ncc_cost` of `surprise_manager_new.py`.  Empty edges give cost
2; flat-edge (std below `epsilon`) cases return before any elementwise product;
otherwise the dead `numerator` line multiplies the two centered edges
elementwise, which raises a broadcast `ValueError` when the lengths differ
(neither length can be 1 here, a singleton edge has zero std); the returned
value divides by `std + epsilon`, clips to `[-1, 1]` and subtracts from 1.
Caveat on the last branch: the source works in float32, where adding the
`1e-9` epsilon to the std of realizable (integer-valued, non-flat) edges is
absorbed by rounding, so this exact-arithmetic embedding is faithful to which
branch is taken (raise, flat policy, or a returned value) but not to the last
branch's exact numeric value; no theorem below relies on that value. -/
noncomputable def nccCost (e1 e2 : List ℝ) : Except Unit ℝ :=
  if e1.length = 0 ∨ e2.length = 0 then .ok 2
  else if lstd e1 < eps9 ℝ ∧ lstd e2 < eps9 ℝ then
    .ok (if |lmean e1 - lmean e2| < eps9 ℝ then 0 else 1)
  else if lstd e1 < eps9 ℝ ∨ lstd e2 < eps9 ℝ then .ok 1
  else if e1.length ≠ e2.length then .error ()
  else
    .ok (1 - clampR (lmean (List.zipWith
      (fun x y => ((x - lmean e1) / (lstd e1 + eps9 ℝ)) * ((y - lmean e2) / (lstd e2 + eps9 ℝ)))
      e1 e2)))

/-- Modelled from the spec (section 4.1): the Pearson correlation coefficient
of two row sequences, "z-score each edge, then average the elementwise
product", with the exact standard deviation in the denominator.  Used only to
compare the code's value against the claimed one. -/
noncomputable def pearsonSpec (e1 e2 : List ℝ) : ℝ :=
  lmean (List.zipWith
    (fun x y => ((x - lmean e1) / lstd e1) * ((y - lmean e2) / lstd e2)) e1 e2)

/-- The extraction loop of `surprise_manager_new.surprise`: `none` models a
slice for which `_get_grayscale_edges_from_image_bytes` returned
`(None, None, 0)`; a decoded slice is its pair of grayscale edge columns, the
reported height being the length of the left column; a zero height aborts.
There is no height-consistency check (it is commented out in the source). -/
def extractGray : List (Option (List ℝ × List ℝ)) → Option (List (List ℝ × List ℝ))
  | [] => some []
  | none :: _ => none
  | some s :: rest =>
    if s.1.length = 0 then none else (extractGray rest).map (fun l => s :: l)

/-- No `nccCost` call of the NCC cost-matrix build raises. -/
def nccPairOk (strips : List (List ℝ × List ℝ)) (n : ℕ) : Prop :=
  ∀ i < n, ∀ j < n, i ≠ j →
    ∃ v, nccCost (strips.getD i ([], [])).2 (strips.getD j ([], [])).1 = .ok v

open Classical in
/-- The NCC cost-matrix build of `surprise_manager_new.surprise` (outside any
`try`): diagonal stays `inf`; a raising `nccCost` propagates. -/
noncomputable def buildMatrixNcc (strips : List (List ℝ × List ℝ)) (n : ℕ) :
    Except Unit (ℕ → ℕ → WithTop ℝ) :=
  if nccPairOk strips n then
    .ok (fun i j =>
      if i = j ∨ n ≤ i ∨ n ≤ j then ⊤
      else
        match nccCost (strips.getD i ([], [])).2 (strips.getD j ([], [])).1 with
        | .ok v => (v : WithTop ℝ)
        | .error _ => ⊤)
  else .error ()

/-- `SurpriseManager.surprise` of `surprise_manager_new.py`: extraction (with
identity fallback), NCC cost matrix (whose exceptions escape), greedy
assembly with identity fallback fed into the fuel-indexed 2-opt refinement. -/
noncomputable def nccSurprise (fuel : ℕ) (inputs : List (Option (List ℝ × List ℝ))) :
    Except Unit (List ℕ) :=
  let n := inputs.length
  if n = 0 then .ok []
  else if n = 1 then .ok [0]
  else
    match extractGray inputs with
    | none => .ok (List.range n)
    | some strips =>
      match buildMatrixNcc strips n with
      | .error _ => .error ()
      | .ok M =>
        let g := greedyBest M n
        let ini := if g = [] then List.range n else g
        .ok (twoOpt M (eps9 ℝ) n fuel ini)

end NccPipeline

section ConcreteWitnessData

/-- Two decoded one-pixel-high strips used as a concrete SAD pipeline input. -/
def stripsW10 : List StripRGB :=
  [⟨[(0, 0, 0)], [(0, 0, 0)], 1⟩, ⟨[(5, 5, 5)], [(5, 5, 5)], 1⟩]

/-- The SAD cost matrix the pipeline builds from `stripsW10`. -/
def mW10 : ℕ → ℕ → WithTop ℤ := fun i j =>
  if i = j ∨ 2 ≤ i ∨ 2 ≤ j then ⊤
  else
    match sadDiff (stripsW10.getD i default).right (stripsW10.getD j default).left 1 with
    | .ok v => (v : WithTop ℤ)
    | .error _ => ⊤

end ConcreteWitnessData

section TwoOptLemmas

variable {α : Type} [LinearOrderedField α] (M : ℕ → ℕ → WithTop α) (eps : α)

lemma twoStep_def (i j : ℕ) (p : List ℕ) (md : Fl α) (imp : Bool) :
    twoStep M eps i j (p, md, imp) =
      (if flLtB (fsub (M (p.getD i 0) (p.getD j 0) + M (p.getD (i + 1) 0) (p.getD (j + 1) 0))
            (M (p.getD i 0) (p.getD (i + 1) 0) + M (p.getD j 0) (p.getD (j + 1) 0))) md
          && flLtB (fsub (M (p.getD i 0) (p.getD j 0) + M (p.getD (i + 1) 0) (p.getD (j + 1) 0))
            (M (p.getD i 0) (p.getD (i + 1) 0) + M (p.getD j 0) (p.getD (j + 1) 0)))
            (Fl.fin (-eps)) then
        (reverseSegment p i j,
          fsub (M (p.getD i 0) (p.getD j 0) + M (p.getD (i + 1) 0) (p.getD (j + 1) 0))
            (M (p.getD i 0) (p.getD (i + 1) 0) + M (p.getD j 0) (p.getD (j + 1) 0)), true)
      else (p, md, imp)) := rfl

lemma reverseSegment_length (p : List ℕ) (i j : ℕ) (hij : i ≤ j) (hj : j < p.length) :
    (reverseSegment p i j).length = p.length := by
  simp only [reverseSegment, List.length_append, List.length_take, List.length_reverse,
    List.length_drop]
  omega

lemma reverseSegment_head? (p : List ℕ) (i j : ℕ) (hp : p ≠ []) :
    (reverseSegment p i j).head? = p.head? := by
  cases p with
  | nil => exact absurd rfl hp
  | cons a t => simp [reverseSegment, List.take_succ_cons]

lemma getLast?_drop_eq (p : List ℕ) : ∀ k, k < p.length → (p.drop k).getLast? = p.getLast? := by
  induction p with
  | nil => intro k hk; simp at hk
  | cons a t ih =>
    intro k hk
    cases k with
    | zero => rfl
    | succ k =>
      have hk' : k < t.length := by simpa using hk
      rw [List.drop_succ_cons, ih k hk']
      cases t with
      | nil => simp at hk'
      | cons b u => rw [List.getLast?_cons_cons]

lemma reverseSegment_getLast? (p : List ℕ) (i j : ℕ) (hj : j + 1 < p.length) :
    (reverseSegment p i j).getLast? = p.getLast? := by
  have hne : p.drop (j + 1) ≠ [] := by
    have : 0 < (p.drop (j + 1)).length := by rw [List.length_drop]; omega
    exact List.length_pos.mp this
  rw [reverseSegment, List.getLast?_append_of_ne_nil _ hne]
  exact getLast?_drop_eq p (j + 1) hj

lemma reverseSegment_perm (p : List ℕ) (i j : ℕ) (hij : i ≤ j) :
    List.Perm (reverseSegment p i j) p := by
  have h1 : p.drop (j + 1) = (p.drop (i + 1)).drop (j - i) := by
    rw [List.drop_drop]
    congr 1
    omega
  have hsplit : p.take (i + 1) ++ ((p.drop (i + 1)).take (j - i) ++ p.drop (j + 1)) = p := by
    rw [h1, List.take_append_drop, List.take_append_drop]
  have hperm : List.Perm (reverseSegment p i j)
      (p.take (i + 1) ++ ((p.drop (i + 1)).take (j - i) ++ p.drop (j + 1))) := by
    rw [reverseSegment, List.append_assoc]
    exact List.Perm.append_left _ (List.Perm.append_right _ (List.reverse_perm _))
  rw [hsplit] at hperm
  exact hperm

lemma scanJ_inv (n i : ℕ) (P : List ℕ × Fl α × Bool → Prop)
    (hstep : ∀ j st, i + 2 ≤ j → j < n - 1 → P st → P (twoStep M eps i j st)) :
    ∀ k j st, i + 2 ≤ j → P st → P (scanJ M eps n i k j st) := by
  intro k
  induction k with
  | zero => intro j st _hij hst; exact hst
  | succ k ih =>
    intro j st hij hst
    rw [scanJ]
    by_cases hj : j < n - 1
    · rw [if_pos hj]
      exact ih (j + 1) _ (by omega) (hstep j st hij hj hst)
    · rw [if_neg hj]; exact hst

lemma scanI_inv (n : ℕ) (P : List ℕ × Fl α × Bool → Prop)
    (hstep : ∀ i j st, i < n - 2 → i + 2 ≤ j → j < n - 1 → P st → P (twoStep M eps i j st)) :
    ∀ k i st, P st → P (scanI M eps n k i st) := by
  intro k
  induction k with
  | zero => intro i st hst; exact hst
  | succ k ih =>
    intro i st hst
    rw [scanI]
    by_cases hi : i < n - 2
    · rw [if_pos hi]
      exact ih (i + 1) _
        (scanJ_inv M eps n i P (fun j st hij hj hst => hstep i j st hi hij hj hst)
          n (i + 2) st le_rfl hst)
    · rw [if_neg hi]; exact hst

lemma twoOptPass_inv (n : ℕ) (p : List ℕ) (P : List ℕ × Fl α × Bool → Prop)
    (hstep : ∀ i j st, i < n - 2 → i + 2 ≤ j → j < n - 1 → P st → P (twoStep M eps i j st))
    (hinit : P (p, Fl.fin 0, false)) : P (twoOptPass M eps n p) :=
  scanI_inv M eps n P hstep n 0 _ hinit

lemma twoOptPass_ends (n : ℕ) (p : List ℕ) (hn : p.length = n) :
    (twoOptPass M eps n p).1.length = n ∧
    (twoOptPass M eps n p).1.head? = p.head? ∧
    (twoOptPass M eps n p).1.getLast? = p.getLast? := by
  refine twoOptPass_inv M eps n p
    (fun st => st.1.length = n ∧ st.1.head? = p.head? ∧ st.1.getLast? = p.getLast?)
    ?_ ⟨hn, rfl, rfl⟩
  intro i j st _hi hij hj hst
  obtain ⟨q, md, imp⟩ := st
  obtain ⟨hlen, hhd, hlast⟩ := hst
  have hql : q.length = n := hlen
  rw [twoStep_def]
  split
  · refine ⟨?_, ?_, ?_⟩
    · rw [reverseSegment_length q i j (by omega) (by omega)]; exact hlen
    · rw [reverseSegment_head? q i j (by rw [← List.length_pos, hlen]; omega)]; exact hhd
    · rw [reverseSegment_getLast? q i j (by omega)]; exact hlast
  · exact ⟨hlen, hhd, hlast⟩

lemma twoOptAux_ends (n : ℕ) : ∀ fuel p, p.length = n →
    (twoOptAux M eps n fuel p).length = n ∧
    (twoOptAux M eps n fuel p).head? = p.head? ∧
    (twoOptAux M eps n fuel p).getLast? = p.getLast? := by
  intro fuel
  induction fuel with
  | zero => intro p hn; exact ⟨hn, rfl, rfl⟩
  | succ f ih =>
    intro p hn
    have hpass := twoOptPass_ends M eps n p hn
    rcases hq : twoOptPass M eps n p with ⟨q, md, imp⟩
    rw [hq] at hpass
    simp only [twoOptAux, hq]
    cases imp with
    | false => exact ⟨hn, rfl, rfl⟩
    | true =>
      simp only [if_true]
      obtain ⟨h1, h2, h3⟩ := ih q hpass.1
      exact ⟨h1, h2.trans hpass.2.1, h3.trans hpass.2.2⟩

lemma flLtB_fin_iff (a b : α) : flLtB (Fl.fin a) (Fl.fin b) = true ↔ a < b := by
  simp [flLtB]

lemma fsub_coe (x y : α) : fsub ((x : WithTop α)) ((y : WithTop α)) = Fl.fin (x - y) := rfl

lemma pathCost_cons_head (a : ℕ) (l : List ℕ) :
    pathCost M (a :: l) = (l.head?.elim 0 (fun b => M a b)) + pathCost M l := by
  cases l with
  | nil => simp [pathCost]
  | cons b t => rfl

lemma pathCost_append_cons (xs : List ℕ) (m : ℕ) (ys : List ℕ) :
    pathCost M (xs ++ m :: ys) = pathCost M (xs ++ [m]) + pathCost M (m :: ys) := by
  induction xs with
  | nil => simp [pathCost]
  | cons a xs ih =>
    rw [List.cons_append, pathCost_cons_head, List.cons_append, pathCost_cons_head M a (xs ++ [m]),
      ih, ← add_assoc]
    have hh : (xs ++ m :: ys).head? = (xs ++ [m]).head? := by cases xs <;> simp
    rw [hh]

lemma pathCost_concat (xs : List ℕ) (y : ℕ) :
    pathCost M (xs ++ [y]) = pathCost M xs + (xs.getLast?.elim 0 (fun x => M x y)) := by
  induction xs with
  | nil => simp [pathCost]
  | cons a xs ih =>
    cases xs with
    | nil => simp [pathCost]
    | cons b xs' =>
      rw [List.cons_append, List.cons_append]
      have hstep : pathCost M (a :: b :: (xs' ++ [y])) =
          M a b + pathCost M (b :: (xs' ++ [y])) := rfl
      rw [hstep, ← List.cons_append, ih, List.getLast?_cons_cons]
      have hstep2 : pathCost M (a :: b :: xs') = M a b + pathCost M (b :: xs') := rfl
      rw [hstep2, add_assoc]

lemma pathCost_reverse (hsym : SymMat M) : ∀ l : List ℕ, pathCost M l.reverse = pathCost M l := by
  intro l
  induction l with
  | nil => rfl
  | cons a l ih =>
    rw [List.reverse_cons, pathCost_concat, ih, pathCost_cons_head, add_comm]
    congr 1
    rw [List.getLast?_reverse]
    cases hh : l.head? with
    | none => rfl
    | some b => simp [hsym b a]

lemma pathCost_ne_top (hfin : FinMat M) : ∀ l : List ℕ, pathCost M l ≠ ⊤ := by
  intro l
  induction l with
  | nil => simp [pathCost]
  | cons a t ih =>
    cases t with
    | nil => simp [pathCost]
    | cons b u =>
      rw [pathCost]
      exact WithTop.add_ne_top.mpr ⟨hfin a b, ih⟩

lemma head?_take_pos (t : List ℕ) (j : ℕ) (hj : 0 < j) (ht : t ≠ []) :
    (t.take j).head? = t.head? := by
  cases t with
  | nil => exact absurd rfl ht
  | cons a t' =>
    cases j with
    | zero => omega
    | succ j' => simp [List.take_succ_cons]

lemma getLast?_take_eq (t : List ℕ) : ∀ j, 1 ≤ j → j ≤ t.length →
    (t.take j).getLast? = some (t.getD (j - 1) 0) := by
  induction t with
  | nil => intro j h1 h2; simp at h2; omega
  | cons a t' ih =>
    intro j h1 h2
    cases j with
    | zero => omega
    | succ j =>
      rw [List.take_succ_cons]
      cases j with
      | zero => simp
      | succ j' =>
        have h2' : j' + 1 ≤ t'.length := by
          simp only [List.length_cons] at h2; omega
        have hih := ih (j' + 1) (by omega) h2'
        cases hX : t'.take (j' + 1) with
        | nil => rw [hX] at hih; simp at hih
        | cons b u =>
          rw [hX] at hih
          rw [List.getLast?_cons_cons, hih]
          simp [List.getD_cons_succ]

lemma head?_drop_eq (t : List ℕ) : ∀ j, j < t.length → (t.drop j).head? = some (t.getD j 0) := by
  induction t with
  | nil => intro j h; simp at h
  | cons a t' ih =>
    intro j h
    cases j with
    | zero => simp
    | succ j =>
      rw [List.drop_succ_cons, List.getD_cons_succ]
      exact ih j (by simp only [List.length_cons] at h; omega)

lemma reverseSegment_cons_succ (a : ℕ) (t : List ℕ) (i j : ℕ) (hj : 1 ≤ j) :
    reverseSegment (a :: t) (i + 1) j = a :: reverseSegment t i (j - 1) := by
  simp only [reverseSegment, List.take_succ_cons, List.drop_succ_cons, List.cons_append]
  rw [show j - (i + 1) = j - 1 - i from by omega, show j - 1 + 1 = j from by omega]

lemma getLast?_cons_ne_nil (a : ℕ) (X : List ℕ) (hX : X ≠ []) :
    (a :: X).getLast? = X.getLast? := by
  cases X with
  | nil => exact absurd rfl hX
  | cons y u => rw [List.getLast?_cons_cons]

lemma drop_eq_getD_cons (t : List ℕ) : ∀ j, j < t.length →
    t.drop j = t.getD j 0 :: t.drop (j + 1) := by
  induction t with
  | nil => intro j h; simp at h
  | cons a t' ih =>
    intro j h
    cases j with
    | zero => simp
    | succ j =>
      rw [List.drop_succ_cons, List.getD_cons_succ]
      exact ih j (by simp only [List.length_cons] at h; omega)

lemma pathCost_revSeg_base (hsym : SymMat M) (a : ℕ) (t : List ℕ) (j : ℕ)
    (hj2 : 2 ≤ j) (hjt : j < t.length) :
    pathCost M (a :: ((t.take j).reverse ++ t.drop j)) +
      (M a (t.getD 0 0) + M (t.getD (j - 1) 0) (t.getD j 0)) =
    pathCost M (a :: t) + (M a (t.getD (j - 1) 0) + M (t.getD 0 0) (t.getD j 0)) := by
  have htne : t ≠ [] := by
    intro h; subst h; simp at hjt
  have hSne : t.take j ≠ [] := by
    have h0 : 0 < (t.take j).length := by
      rw [List.length_take]; omega
    exact List.length_pos.mp h0
  have hSrevne : (t.take j).reverse ≠ [] := by simpa using hSne
  have hb : t.head? = some (t.getD 0 0) := by
    cases t with
    | nil => exact absurd rfl htne
    | cons x t' => rfl
  have hShead : (t.take j).head? = some (t.getD 0 0) := by
    rw [head?_take_pos t j (by omega) htne, hb]
  have hSlast : (t.take j).getLast? = some (t.getD (j - 1) 0) :=
    getLast?_take_eq t j (by omega) (by omega)
  have hD : t.drop j = t.getD j 0 :: t.drop (j + 1) := drop_eq_getD_cons t j hjt
  have hL : pathCost M (a :: ((t.take j).reverse ++ t.drop j)) =
      M a (t.getD (j - 1) 0) + pathCost M (t.take j) + M (t.getD 0 0) (t.getD j 0) +
        pathCost M (t.getD j 0 :: t.drop (j + 1)) := by
    rw [hD, ← List.cons_append, pathCost_append_cons, pathCost_concat,
      getLast?_cons_ne_nil a _ hSrevne, List.getLast?_reverse, hShead, pathCost_cons_head,
      List.head?_reverse, hSlast, pathCost_reverse M hsym]
    simp only [Option.elim_some]
    try abel
  have hR : pathCost M (a :: t) =
      M a (t.getD 0 0) + pathCost M (t.take j) + M (t.getD (j - 1) 0) (t.getD j 0) +
        pathCost M (t.getD j 0 :: t.drop (j + 1)) := by
    conv_lhs => rw [show t = t.take j ++ t.drop j from (List.take_append_drop j t).symm]
    rw [hD, ← List.cons_append, pathCost_append_cons, pathCost_concat,
      getLast?_cons_ne_nil a _ hSne, hSlast, pathCost_cons_head, hShead]
    simp only [Option.elim_some]
    try abel
  rw [hL, hR]
  abel

lemma pathCost_reverseSegment (hsym : SymMat M) :
    ∀ i (p : List ℕ) j, i + 2 ≤ j → j + 1 < p.length →
    pathCost M (reverseSegment p i j) +
      (M (p.getD i 0) (p.getD (i + 1) 0) + M (p.getD j 0) (p.getD (j + 1) 0)) =
    pathCost M p + (M (p.getD i 0) (p.getD j 0) + M (p.getD (i + 1) 0) (p.getD (j + 1) 0)) := by
  intro i
  induction i with
  | zero =>
    intro p j hij hj
    cases p with
    | nil => simp at hj
    | cons a t =>
      have hrev : reverseSegment (a :: t) 0 j = a :: ((t.take j).reverse ++ t.drop j) := by
        simp [reverseSegment]
      have hgj : (a :: t).getD j 0 = t.getD (j - 1) 0 := by
        cases j with
        | zero => omega
        | succ j' => simp [List.getD_cons_succ]
      have hgj1 : (a :: t).getD (j + 1) 0 = t.getD j 0 := by simp [List.getD_cons_succ]
      rw [hrev, hgj, hgj1]
      have hjt : j < t.length := by
        simp only [List.length_cons] at hj; omega
      exact pathCost_revSeg_base M hsym a t j (by omega) hjt
  | succ i ih =>
    intro p j hij hj
    cases p with
    | nil => simp at hj
    | cons a t =>
      have htne : t ≠ [] := by
        intro h; subst h
        simp only [List.length_cons, List.length_nil] at hj
        omega
      have hrec : reverseSegment (a :: t) (i + 1) j = a :: reverseSegment t i (j - 1) :=
        reverseSegment_cons_succ a t i j (by omega)
      rw [hrec, pathCost_cons_head, pathCost_cons_head M a t,
        reverseSegment_head? t i (j - 1) htne]
      have e1 : (a :: t).getD (i + 1) 0 = t.getD i 0 := by simp [List.getD_cons_succ]
      have e2 : (a :: t).getD (i + 2) 0 = t.getD (i + 1) 0 := by simp [List.getD_cons_succ]
      have e3 : (a :: t).getD j 0 = t.getD (j - 1) 0 := by
        cases j with
        | zero => omega
        | succ j' => simp [List.getD_cons_succ]
      have e4 : (a :: t).getD (j + 1) 0 = t.getD j 0 := by simp [List.getD_cons_succ]
      rw [e1, e2, e3, e4]
      have hjt : (j - 1) + 1 < t.length := by
        simp only [List.length_cons] at hj; omega
      have hih := ih t (j - 1) (by omega) hjt
      rw [show (j - 1) + 1 = j from by omega] at hih
      rw [add_assoc, add_assoc, hih, ← add_assoc, ← add_assoc]

lemma twoOptPass_cost (hsym : SymMat M) (hfin : FinMat M) (n : ℕ) (p : List ℕ)
    (hn : p.length = n) :
    (twoOptPass M eps n p).1.length = n ∧
    List.Perm (twoOptPass M eps n p).1 p ∧
    pathCost M (twoOptPass M eps n p).1 ≤ pathCost M p ∧
    ((twoOptPass M eps n p).2.2 = true → pathCost M (twoOptPass M eps n p).1 < pathCost M p) := by
  have main := twoOptPass_inv M eps n p
    (fun st => st.1.length = n ∧ List.Perm st.1 p ∧ pathCost M st.1 ≤ pathCost M p ∧
      (st.2.2 = true → pathCost M st.1 < pathCost M p) ∧
      (∃ m : α, st.2.1 = Fl.fin m ∧ m ≤ 0)) ?step ?init
  · exact ⟨main.1, main.2.1, main.2.2.1, main.2.2.2.1⟩
  case init =>
    exact ⟨hn, List.Perm.refl p, le_refl _, fun h => absurd h (by simp), 0, rfl, le_refl 0⟩
  case step =>
    intro i j st _hi hij hj hst
    obtain ⟨q, md, imp⟩ := st
    obtain ⟨hlen, hperm, hle, himp, m, hmd, hm0⟩ := hst
    have hql : q.length = n := hlen
    have hmd' : md = Fl.fin m := hmd
    subst hmd'
    rw [twoStep_def]
    set dv := fsub (M (q.getD i 0) (q.getD j 0) + M (q.getD (i + 1) 0) (q.getD (j + 1) 0))
      (M (q.getD i 0) (q.getD (i + 1) 0) + M (q.getD j 0) (q.getD (j + 1) 0)) with hdv
    by_cases hacc : (flLtB dv (Fl.fin m) && flLtB dv (Fl.fin (-eps))) = true
    · rw [if_pos hacc]
      obtain ⟨h1, _h2⟩ := Bool.and_eq_true_iff.mp hacc
      obtain ⟨vac, hvac⟩ := WithTop.ne_top_iff_exists.mp (hfin (q.getD i 0) (q.getD j 0))
      obtain ⟨vbd, hvbd⟩ :=
        WithTop.ne_top_iff_exists.mp (hfin (q.getD (i + 1) 0) (q.getD (j + 1) 0))
      obtain ⟨vab, hvab⟩ := WithTop.ne_top_iff_exists.mp (hfin (q.getD i 0) (q.getD (i + 1) 0))
      obtain ⟨vcd, hvcd⟩ := WithTop.ne_top_iff_exists.mp (hfin (q.getD j 0) (q.getD (j + 1) 0))
      have hdval : dv = Fl.fin ((vac + vbd) - (vab + vcd)) := by
        rw [hdv, ← hvac, ← hvbd, ← hvab, ← hvcd, ← WithTop.coe_add, ← WithTop.coe_add, fsub_coe]
      have hlt : (vac + vbd) - (vab + vcd) < m := by
        rw [hdval] at h1
        exact (flLtB_fin_iff _ _).mp h1
      have hcosteq := pathCost_reverseSegment M hsym i q j hij (by omega)
      obtain ⟨cq, hcq⟩ := WithTop.ne_top_iff_exists.mp (pathCost_ne_top M hfin q)
      obtain ⟨cr, hcr⟩ :=
        WithTop.ne_top_iff_exists.mp (pathCost_ne_top M hfin (reverseSegment q i j))
      rw [← hcq, ← hcr, ← hvac, ← hvbd, ← hvab, ← hvcd] at hcosteq
      have heq : cr + (vab + vcd) = cq + (vac + vbd) := by exact_mod_cast hcosteq
      have hcrq : cr < cq := by linarith
      have hlt2 : pathCost M (reverseSegment q i j) < pathCost M q := by
        rw [← hcq, ← hcr]
        exact_mod_cast hcrq
      refine ⟨?_, ?_, ?_, ?_, ?_⟩
      · rw [reverseSegment_length q i j (by omega) (by omega)]; exact hql
      · exact (reverseSegment_perm q i j (by omega)).trans hperm
      · exact le_of_lt (lt_of_lt_of_le hlt2 hle)
      · intro _
        exact lt_of_lt_of_le hlt2 hle
      · exact ⟨(vac + vbd) - (vab + vcd), hdval, by linarith⟩
    · rw [if_neg hacc]
      exact ⟨hlen, hperm, hle, himp, m, rfl, hm0⟩

lemma twoOptAux_cost (hsym : SymMat M) (hfin : FinMat M) (n : ℕ) : ∀ fuel p, p.length = n →
    (twoOptAux M eps n fuel p).length = n ∧
    List.Perm (twoOptAux M eps n fuel p) p ∧
    pathCost M (twoOptAux M eps n fuel p) ≤ pathCost M p := by
  intro fuel
  induction fuel with
  | zero => intro p hn; exact ⟨hn, List.Perm.refl p, le_refl _⟩
  | succ f ih =>
    intro p hn
    have hpass := twoOptPass_cost M eps hsym hfin n p hn
    rcases hq : twoOptPass M eps n p with ⟨q, md, imp⟩
    rw [hq] at hpass
    simp only [twoOptAux, hq]
    cases imp with
    | false => exact ⟨hn, List.Perm.refl p, le_refl _⟩
    | true =>
      simp only [if_true]
      obtain ⟨h1, h2, h3⟩ := ih q hpass.1
      exact ⟨h1, h2.trans hpass.2.1, h3.trans hpass.2.2.1⟩

lemma twoOpt_terminates_of_symm (hsym : SymMat M) (hfin : FinMat M) (n : ℕ) :
    ∀ p, p.length = n → TwoOptTerminates M eps n p := by
  have main : ∀ k p, p.length = n →
      ((p.permutations.toFinset).filter (fun q => pathCost M q < pathCost M p)).card ≤ k →
      TwoOptTerminates M eps n p := by
    intro k
    induction k with
    | zero =>
      intro p hn hcard
      by_cases himp : (twoOptPass M eps n p).2.2 = true
      · have hpass := twoOptPass_cost M eps hsym hfin n p hn
        have hlt : pathCost M (twoOptPass M eps n p).1 < pathCost M p := hpass.2.2.2 himp
        have hqmem : (twoOptPass M eps n p).1 ∈
            (p.permutations.toFinset).filter (fun r => pathCost M r < pathCost M p) := by
          simp only [Finset.mem_filter, List.mem_toFinset, List.mem_permutations]
          exact ⟨hpass.2.1, hlt⟩
        have := Finset.card_pos.mpr ⟨_, hqmem⟩
        omega
      · rcases hq : twoOptPass M eps n p with ⟨q, md, imp⟩
        rw [hq] at himp
        have himp' : imp = false := by
          cases imp
          · rfl
          · exact absurd rfl himp
        subst himp'
        refine ⟨1, p, ?_⟩
        simp only [twoOptConv, hq]
        rfl
    | succ k ih =>
      intro p hn hcard
      by_cases himp : (twoOptPass M eps n p).2.2 = true
      · have hpass := twoOptPass_cost M eps hsym hfin n p hn
        have hlt : pathCost M (twoOptPass M eps n p).1 < pathCost M p := hpass.2.2.2 himp
        have hqp := hpass.2.1
        have hsub : ((twoOptPass M eps n p).1.permutations.toFinset).filter
            (fun r => pathCost M r < pathCost M (twoOptPass M eps n p).1) ⊂
            (p.permutations.toFinset).filter (fun r => pathCost M r < pathCost M p) := by
          constructor
          · intro r hr
            simp only [Finset.mem_filter, List.mem_toFinset, List.mem_permutations] at hr ⊢
            exact ⟨hr.1.trans hqp, hr.2.trans hlt⟩
          · intro hcon
            have hqmem : (twoOptPass M eps n p).1 ∈
                (p.permutations.toFinset).filter (fun r => pathCost M r < pathCost M p) := by
              simp only [Finset.mem_filter, List.mem_toFinset, List.mem_permutations]
              exact ⟨hqp, hlt⟩
            have hmem2 := hcon hqmem
            simp only [Finset.mem_filter, List.mem_toFinset, List.mem_permutations] at hmem2
            exact absurd hmem2.2 (lt_irrefl _)
        have hcard' := Finset.card_lt_card hsub
        obtain ⟨F, r, hF⟩ := ih (twoOptPass M eps n p).1 hpass.1 (by omega)
        refine ⟨F + 1, r, ?_⟩
        rcases hq : twoOptPass M eps n p with ⟨q, md, imp⟩
        rw [hq] at himp hF
        have himp' : imp = true := himp
        subst himp'
        simp only [twoOptConv, hq, if_true]
        exact hF
      · rcases hq : twoOptPass M eps n p with ⟨q, md, imp⟩
        rw [hq] at himp
        have himp' : imp = false := by
          cases imp
          · rfl
          · exact absurd rfl himp
        subst himp'
        refine ⟨1, p, ?_⟩
        simp only [twoOptConv, hq]
        rfl
  intro p hn
  exact main _ p hn le_rfl

lemma twoStep_reject (p : List ℕ) (i j : ℕ) (h : acceptB M eps p i j = false) :
    twoStep M eps i j (p, Fl.fin 0, false) = (p, Fl.fin 0, false) := by
  rw [twoStep_def]
  have hc : (flLtB (fsub (M (p.getD i 0) (p.getD j 0) + M (p.getD (i + 1) 0) (p.getD (j + 1) 0))
        (M (p.getD i 0) (p.getD (i + 1) 0) + M (p.getD j 0) (p.getD (j + 1) 0))) (Fl.fin 0)
      && flLtB (fsub (M (p.getD i 0) (p.getD j 0) + M (p.getD (i + 1) 0) (p.getD (j + 1) 0))
        (M (p.getD i 0) (p.getD (i + 1) 0) + M (p.getD j 0) (p.getD (j + 1) 0)))
        (Fl.fin (-eps))) = acceptB M eps p i j := rfl
  rw [hc, h]
  simp

lemma scanJ_fuel (n i : ℕ) : ∀ k k' j (st : List ℕ × Fl α × Bool),
    n - 1 - j ≤ k → n - 1 - j ≤ k' →
    scanJ M eps n i k j st = scanJ M eps n i k' j st := by
  intro k
  induction k with
  | zero =>
    intro k' j st hk _hk'
    cases k' with
    | zero => rfl
    | succ k' =>
      show st = scanJ M eps n i (k' + 1) j st
      rw [scanJ, if_neg (by omega : ¬ j < n - 1)]
  | succ k ih =>
    intro k' j st hk hk'
    cases k' with
    | zero =>
      rw [scanJ, scanJ, if_neg (by omega : ¬ j < n - 1)]
    | succ k' =>
      rw [scanJ]
      conv_rhs => rw [scanJ]
      by_cases hj : j < n - 1
      · rw [if_pos hj, if_pos hj]
        exact ih k' (j + 1) _ (by omega) (by omega)
      · rw [if_neg hj, if_neg hj]

lemma scanI_fuel (n : ℕ) : ∀ k k' i (st : List ℕ × Fl α × Bool),
    n - 2 - i ≤ k → n - 2 - i ≤ k' →
    scanI M eps n k i st = scanI M eps n k' i st := by
  intro k
  induction k with
  | zero =>
    intro k' i st hk _hk'
    cases k' with
    | zero => rfl
    | succ k' =>
      show st = scanI M eps n (k' + 1) i st
      rw [scanI, if_neg (by omega : ¬ i < n - 2)]
  | succ k ih =>
    intro k' i st hk hk'
    cases k' with
    | zero =>
      rw [scanI, scanI, if_neg (by omega : ¬ i < n - 2)]
    | succ k' =>
      rw [scanI]
      conv_rhs => rw [scanI]
      by_cases hi : i < n - 2
      · rw [if_pos hi, if_pos hi]
        exact ih k' (i + 1) _ (by omega) (by omega)
      · rw [if_neg hi, if_neg hi]

lemma findJ_none_scanJ (n i : ℕ) (p : List ℕ) : ∀ k j,
    findJ M eps n i p k j = none → n - 1 - j ≤ k →
    scanJ M eps n i k j (p, Fl.fin 0, false) = (p, Fl.fin 0, false) := by
  intro k
  induction k with
  | zero => intro j _ _; rfl
  | succ k ih =>
    intro j hfind hk
    rw [findJ] at hfind
    rw [scanJ]
    by_cases hj : j < n - 1
    · rw [if_pos hj] at hfind
      rw [if_pos hj]
      by_cases hacc : acceptB M eps p i j = true
      · rw [if_pos hacc] at hfind
        exact absurd hfind (by simp)
      · have hacc' : acceptB M eps p i j = false := by
          cases h : acceptB M eps p i j
          · rfl
          · exact absurd h hacc
        rw [if_neg hacc] at hfind
        rw [twoStep_reject M eps p i j hacc']
        exact ih (j + 1) hfind (by omega)
    · rw [if_neg hj]

lemma findJ_some_scanJ (n i : ℕ) (p : List ℕ) : ∀ k j j',
    findJ M eps n i p k j = some j' → n - 1 - j ≤ k →
    acceptB M eps p i j' = true ∧ j ≤ j' ∧ j' < n - 1 ∧
    scanJ M eps n i k j (p, Fl.fin 0, false) =
      scanJ M eps n i n (j' + 1) (twoStep M eps i j' (p, Fl.fin 0, false)) := by
  intro k
  induction k with
  | zero => intro j j' hfind _; exact absurd hfind (by rw [findJ]; simp)
  | succ k ih =>
    intro j j' hfind hk
    rw [findJ] at hfind
    by_cases hj : j < n - 1
    · rw [if_pos hj] at hfind
      by_cases hacc : acceptB M eps p i j = true
      · rw [if_pos hacc] at hfind
        have hj' : j' = j := by
          have := Option.some.inj hfind
          omega
        subst hj'
        refine ⟨hacc, le_refl _, hj, ?_⟩
        rw [scanJ, if_pos hj]
        exact scanJ_fuel M eps n i k n (j' + 1) _ (by omega) (by omega)
      · have hacc' : acceptB M eps p i j = false := by
          cases h : acceptB M eps p i j
          · rfl
          · exact absurd h hacc
        rw [if_neg hacc] at hfind
        obtain ⟨ha, hle, hlt, heq⟩ := ih (j + 1) j' hfind (by omega)
        refine ⟨ha, by omega, hlt, ?_⟩
        rw [scanJ, if_pos hj, twoStep_reject M eps p i j hacc']
        exact heq
    · rw [if_neg hj] at hfind
      exact absurd hfind (by simp)

lemma findI_none_scanI (n : ℕ) (p : List ℕ) : ∀ k i,
    findI M eps n p k i = none → n - 2 - i ≤ k →
    scanI M eps n k i (p, Fl.fin 0, false) = (p, Fl.fin 0, false) := by
  intro k
  induction k with
  | zero => intro i _ _; rfl
  | succ k ih =>
    intro i hfind hk
    rw [findI] at hfind
    rw [scanI]
    by_cases hi : i < n - 2
    · rw [if_pos hi] at hfind
      rw [if_pos hi]
      cases hJ : findJ M eps n i p n (i + 2) with
      | some j => rw [hJ] at hfind; exact absurd hfind (by simp)
      | none =>
        rw [hJ] at hfind
        rw [findJ_none_scanJ M eps n i p n (i + 2) hJ (by omega)]
        exact ih (i + 1) hfind (by omega)
    · rw [if_neg hi]

lemma findI_some_scanI (n : ℕ) (p : List ℕ) : ∀ k i i' j',
    findI M eps n p k i = some (i', j') → n - 2 - i ≤ k →
    acceptB M eps p i' j' = true ∧ i ≤ i' ∧ i' < n - 2 ∧ i' + 2 ≤ j' ∧ j' < n - 1 ∧
    scanI M eps n k i (p, Fl.fin 0, false) =
      scanI M eps n n (i' + 1)
        (scanJ M eps n i' n (j' + 1) (twoStep M eps i' j' (p, Fl.fin 0, false))) := by
  intro k
  induction k with
  | zero => intro i i' j' hfind _; exact absurd hfind (by rw [findI]; simp)
  | succ k ih =>
    intro i i' j' hfind hk
    rw [findI] at hfind
    by_cases hi : i < n - 2
    · rw [if_pos hi] at hfind
      cases hJ : findJ M eps n i p n (i + 2) with
      | some j =>
        rw [hJ] at hfind
        obtain ⟨hi1, hj1⟩ : i = i' ∧ j = j' := Prod.mk.inj (Option.some.inj hfind)
        subst hi1
        subst hj1
        obtain ⟨ha, hle, hlt, heq⟩ := findJ_some_scanJ M eps n i p n (i + 2) j hJ (by omega)
        refine ⟨ha, le_refl _, hi, hle, hlt, ?_⟩
        rw [scanI, if_pos hi, heq]
        exact scanI_fuel M eps n k n (i + 1) _ (by omega) (by omega)
      | none =>
        rw [hJ] at hfind
        obtain ⟨ha, hle, h2, h3, h4, heq⟩ := ih (i + 1) i' j' hfind (by omega)
        refine ⟨ha, by omega, h2, h3, h4, ?_⟩
        rw [scanI, if_pos hi, findJ_none_scanJ M eps n i p n (i + 2) hJ (by omega)]
        exact heq
    · rw [if_neg hi] at hfind
      exact absurd hfind (by simp)

end TwoOptLemmas

/-- C3 (counterexample): on the asymmetric finite matrix `mc3`, the code's
2-opt refiner converges (a pass reports no improvement within fuel 9) to
`[0, 3, 2, 1, 4]`, whose total path cost exceeds the input permutation's cost:
the accepted delta only accounts for the two boundary edges, while reversal
flips the direction (and hence the cost) of the interior edges. -/
theorem C3_counterexample :
    twoOpt mc3 (eps9 ℚ) 5 9 [0, 1, 2, 3, 4] = [0, 3, 2, 1, 4] ∧
    twoOptConv mc3 (eps9 ℚ) 5 9 [0, 1, 2, 3, 4] = some [0, 3, 2, 1, 4] ∧
    ¬ pathCost mc3 (twoOpt mc3 (eps9 ℚ) 5 9 [0, 1, 2, 3, 4]) ≤ pathCost mc3 [0, 1, 2, 3, 4] :=
  ⟨by with_unfolding_all decide, by with_unfolding_all decide, by with_unfolding_all decide⟩

/-- C3 (amended): for every symmetric cost matrix with finite entries, the
total path cost of the permutation returned by the 2-opt refiner is at most
the total path cost of the input permutation, for every fuel budget; for
asymmetric matrices the cost can increase (see the counterexample). -/
theorem C3_amended {α : Type} [LinearOrderedField α] (M : ℕ → ℕ → WithTop α)
    (n fuel : ℕ) (p : List ℕ) (hsym : SymMat M) (hfin : FinMat M) (hn : p.length = n) :
    pathCost M (twoOpt M (eps9 α) n fuel p) ≤ pathCost M p := by
  rw [twoOpt]
  by_cases h4 : n < 4
  · rw [if_pos h4]
  · rw [if_neg h4]
    exact (twoOptAux_cost M (eps9 α) hsym hfin n fuel p hn).2.2

/-- Witness for C3 (amended) at a concrete symmetric finite matrix. -/
theorem C3_witness :
    SymMat (fun _ _ => ((1 : ℚ) : WithTop ℚ)) ∧
    FinMat (fun _ _ => ((1 : ℚ) : WithTop ℚ)) ∧
    pathCost (fun _ _ => ((1 : ℚ) : WithTop ℚ))
        (twoOpt (fun _ _ => ((1 : ℚ) : WithTop ℚ)) (eps9 ℚ) 4 3 [0, 1, 2, 3]) ≤
      pathCost (fun _ _ => ((1 : ℚ) : WithTop ℚ)) [0, 1, 2, 3] :=
  ⟨fun _ _ => rfl, fun _ _ => WithTop.coe_ne_top,
    C3_amended (fun _ _ => ((1 : ℚ) : WithTop ℚ)) 4 3 [0, 1, 2, 3]
      (fun _ _ => rfl) (fun _ _ => WithTop.coe_ne_top) rfl⟩

/-- C4 (counterexample): on the asymmetric finite matrix `mc4` the
`while improved:` loop never terminates from `[0, 1, 2, 3, 4]`: the passes
cycle through four permutations, each pass accepting improving moves forever. -/
theorem C4_counterexample : ¬ TwoOptTerminates mc4 (eps9 ℚ) 5 [0, 1, 2, 3, 4] := by
  intro hterm
  obtain ⟨F, r, hF⟩ := hterm
  have hp1 : twoOptPass mc4 (eps9 ℚ) 5 [0, 1, 2, 3, 4] = ([0, 3, 2, 1, 4], Fl.fin (-1), true) := by
    with_unfolding_all decide
  have hp2 : twoOptPass mc4 (eps9 ℚ) 5 [0, 3, 2, 1, 4] = ([0, 2, 3, 1, 4], Fl.fin (-10), true) := by
    with_unfolding_all decide
  have hp3 : twoOptPass mc4 (eps9 ℚ) 5 [0, 2, 3, 1, 4] = ([0, 2, 1, 3, 4], Fl.fin (-1), true) := by
    with_unfolding_all decide
  have hp4 : twoOptPass mc4 (eps9 ℚ) 5 [0, 2, 1, 3, 4] = ([0, 1, 2, 3, 4], Fl.fin (-20), true) := by
    with_unfolding_all decide
  have h1 : ∀ G, twoOptConv mc4 (eps9 ℚ) 5 (G + 1) [0, 1, 2, 3, 4] =
      twoOptConv mc4 (eps9 ℚ) 5 G [0, 3, 2, 1, 4] := by
    intro G; simp only [twoOptConv, hp1, if_true]
  have h2 : ∀ G, twoOptConv mc4 (eps9 ℚ) 5 (G + 1) [0, 3, 2, 1, 4] =
      twoOptConv mc4 (eps9 ℚ) 5 G [0, 2, 3, 1, 4] := by
    intro G; simp only [twoOptConv, hp2, if_true]
  have h3 : ∀ G, twoOptConv mc4 (eps9 ℚ) 5 (G + 1) [0, 2, 3, 1, 4] =
      twoOptConv mc4 (eps9 ℚ) 5 G [0, 2, 1, 3, 4] := by
    intro G; simp only [twoOptConv, hp3, if_true]
  have h4 : ∀ G, twoOptConv mc4 (eps9 ℚ) 5 (G + 1) [0, 2, 1, 3, 4] =
      twoOptConv mc4 (eps9 ℚ) 5 G [0, 1, 2, 3, 4] := by
    intro G; simp only [twoOptConv, hp4, if_true]
  have key : ∀ G q, (q = [0, 1, 2, 3, 4] ∨ q = [0, 3, 2, 1, 4] ∨
      q = [0, 2, 3, 1, 4] ∨ q = [0, 2, 1, 3, 4]) →
      twoOptConv mc4 (eps9 ℚ) 5 G q = none := by
    intro G
    induction G with
    | zero => intro q _; rfl
    | succ G ih =>
      intro q hq
      rcases hq with h | h | h | h <;> subst h
      · rw [h1 G]; exact ih _ (Or.inr (Or.inl rfl))
      · rw [h2 G]; exact ih _ (Or.inr (Or.inr (Or.inl rfl)))
      · rw [h3 G]; exact ih _ (Or.inr (Or.inr (Or.inr rfl)))
      · rw [h4 G]; exact ih _ (Or.inl rfl)
  rw [key F [0, 1, 2, 3, 4] (Or.inl rfl)] at hF
  exact Option.noConfusion hF

/-- C4 (amended): for every symmetric cost matrix with finite entries, the
2-opt `while improved:` loop terminates on every starting permutation (each
improving pass strictly lowers the total path cost, and only finitely many
permutations of the start exist); for asymmetric finite matrices the loop can
run forever (see the counterexample). -/
theorem C4_amended {α : Type} [LinearOrderedField α] (M : ℕ → ℕ → WithTop α)
    (n : ℕ) (p : List ℕ) (hsym : SymMat M) (hfin : FinMat M) (hn : p.length = n) :
    TwoOptTerminates M (eps9 α) n p :=
  twoOpt_terminates_of_symm M (eps9 α) hsym hfin n p hn

/-- Witness for C4 (amended) at a concrete symmetric finite matrix. -/
theorem C4_witness : TwoOptTerminates (fun _ _ => ((1 : ℚ) : WithTop ℚ)) (eps9 ℚ) 4 [0, 1, 2, 3] :=
  C4_amended (fun _ _ => ((1 : ℚ) : WithTop ℚ)) 4 [0, 1, 2, 3]
    (fun _ _ => rfl) (fun _ _ => WithTop.coe_ne_top) rfl

/-- C5 (counterexample): on the matrix `mc5` the refiner's output differs from
the output of the spec's first-improvement-restart policy: after applying the
first improving move the code continues the current scan (filtering later
moves by the updated `min_delta`) instead of restarting from the beginning. -/
theorem C5_counterexample :
    twoOpt mc5 (eps9 ℚ) 5 9 [0, 1, 2, 3, 4] = [0, 2, 3, 1, 4] ∧
    specRestartTwoOpt mc5 (eps9 ℚ) 5 9 [0, 1, 2, 3, 4] = [0, 3, 1, 2, 4] ∧
    twoOpt mc5 (eps9 ℚ) 5 9 [0, 1, 2, 3, 4] ≠ specRestartTwoOpt mc5 (eps9 ℚ) 5 9 [0, 1, 2, 3, 4] :=
  ⟨by with_unfolding_all decide, by with_unfolding_all decide, by with_unfolding_all decide⟩

/-- C5 (amended): each pass scans `i` ascending then `j` ascending and applies
the first move that is strictly improving beyond the tolerance; after applying
it, the pass does not restart but continues in place, with the scan resuming
at `(i, j + 1)` on the mutated permutation (`min_delta` now the accepted
delta); when no move is strictly improving the pass leaves the state
untouched.  The scan only restarts from the beginning after a whole pass. -/
theorem C5_amended {α : Type} [LinearOrderedField α] (M : ℕ → ℕ → WithTop α)
    (n : ℕ) (p : List ℕ) :
    (firstMove M (eps9 α) n p = none → twoOptPass M (eps9 α) n p = (p, Fl.fin 0, false)) ∧
    (∀ i j, firstMove M (eps9 α) n p = some (i, j) →
      acceptB M (eps9 α) p i j = true ∧
      twoOptPass M (eps9 α) n p =
        scanI M (eps9 α) n n (i + 1)
          (scanJ M (eps9 α) n i n (j + 1) (twoStep M (eps9 α) i j (p, Fl.fin 0, false)))) := by
  constructor
  · intro hnone
    exact findI_none_scanI M (eps9 α) n p n 0 hnone (by omega)
  · intro i j hsome
    obtain ⟨ha, _h0, _h2, _h3, _h4, heq⟩ :=
      findI_some_scanI M (eps9 α) n p n 0 i j hsome (by omega)
    exact ⟨ha, heq⟩

/-- Witness for C5 (amended) at the concrete matrix `mc5`, whose first
improving move from the identity is `(0, 2)`. -/
theorem C5_witness :
    firstMove mc5 (eps9 ℚ) 5 [0, 1, 2, 3, 4] = some (0, 2) ∧
    (acceptB mc5 (eps9 ℚ) [0, 1, 2, 3, 4] 0 2 = true ∧
      twoOptPass mc5 (eps9 ℚ) 5 [0, 1, 2, 3, 4] =
        scanI mc5 (eps9 ℚ) 5 5 1
          (scanJ mc5 (eps9 ℚ) 5 0 5 3 (twoStep mc5 (eps9 ℚ) 0 2 ([0, 1, 2, 3, 4], Fl.fin 0, false)))) :=
  ⟨by with_unfolding_all decide,
    (C5_amended mc5 5 [0, 1, 2, 3, 4]).2 0 2 (by with_unfolding_all decide)⟩

lemma pickAux_spec {α : Type} [LinearOrderedAddCommMonoid α] (M : ℕ → ℕ → WithTop α)
    (last : ℕ) (used : List ℕ) : ∀ m,
    ((List.range m).foldl (pickStep M last used) (none, ⊤) =
        ((none : Option ℕ), (⊤ : WithTop α)) ∧
      ∀ k2 < m, k2 ∉ used → M last k2 = ⊤) ∨
    (∃ k, (List.range m).foldl (pickStep M last used) (none, ⊤) = (some k, M last k) ∧
      k < m ∧ k ∉ used ∧ M last k ≠ ⊤ ∧
      (∀ k2 < m, k2 ∉ used → M last k ≤ M last k2) ∧
      (∀ k2 < k, k2 ∉ used → M last k < M last k2)) := by
  intro m
  induction m with
  | zero => exact Or.inl ⟨rfl, by omega⟩
  | succ m ih =>
    rw [List.range_succ, List.foldl_append, List.foldl_cons, List.foldl_nil]
    rcases ih with ⟨heq, hall⟩ | ⟨k, heq, hk, hku, hkfin, hmin, htie⟩
    · rw [heq, pickStep]
      by_cases hm : m ∈ used
      · rw [if_pos hm]
        refine Or.inl ⟨rfl, ?_⟩
        intro k2 hk2 hk2u
        rcases Nat.lt_succ_iff_lt_or_eq.mp hk2 with h | h
        · exact hall k2 h hk2u
        · subst h; exact absurd hm hk2u
      · rw [if_neg hm]
        by_cases hfin : M last m < (⊤ : WithTop α)
        · rw [if_pos hfin]
          refine Or.inr ⟨m, rfl, by omega, hm, LT.lt.ne hfin, ?_, ?_⟩
          · intro k2 hk2 hk2u
            rcases Nat.lt_succ_iff_lt_or_eq.mp hk2 with h | h
            · rw [hall k2 h hk2u]; exact le_top
            · subst h; exact le_refl _
          · intro k2 hk2 hk2u
            rw [hall k2 hk2 hk2u]
            exact hfin
        · rw [if_neg hfin]
          refine Or.inl ⟨rfl, ?_⟩
          intro k2 hk2 hk2u
          rcases Nat.lt_succ_iff_lt_or_eq.mp hk2 with h | h
          · exact hall k2 h hk2u
          · subst h
            exact not_not.mp (fun hne => hfin (lt_top_iff_ne_top.mpr hne))
    · rw [heq, pickStep]
      by_cases hm : m ∈ used
      · rw [if_pos hm]
        refine Or.inr ⟨k, rfl, by omega, hku, hkfin, ?_, htie⟩
        intro k2 hk2 hk2u
        rcases Nat.lt_succ_iff_lt_or_eq.mp hk2 with h | h
        · exact hmin k2 h hk2u
        · subst h; exact absurd hm hk2u
      · rw [if_neg hm]
        by_cases hlt : M last m < M last k
        · rw [if_pos hlt]
          refine Or.inr ⟨m, rfl, by omega, hm, ?_, ?_, ?_⟩
          · exact ne_top_of_lt hlt
          · intro k2 hk2 hk2u
            rcases Nat.lt_succ_iff_lt_or_eq.mp hk2 with h | h
            · exact le_of_lt (lt_of_lt_of_le hlt (hmin k2 h hk2u))
            · subst h; exact le_refl _
          · intro k2 hk2 hk2u
            exact lt_of_lt_of_le hlt (hmin k2 hk2 hk2u)
        · rw [if_neg hlt]
          refine Or.inr ⟨k, rfl, by omega, hku, hkfin, ?_, htie⟩
          intro k2 hk2 hk2u
          rcases Nat.lt_succ_iff_lt_or_eq.mp hk2 with h | h
          · exact hmin k2 h hk2u
          · subst h; exact not_lt.mp hlt

/-- C7: whenever the greedy candidate scan returns a next strip, that strip is
the unused id of minimal connection cost from the chain's last strip, and among
all unused ids attaining that minimum it is the smallest id: every smaller
unused id has strictly larger cost.  The scan is a deterministic fold, so the
assembler's choice is deterministic. -/
theorem C7_greedy_tiebreak {α : Type} [LinearOrderedAddCommMonoid α]
    (M : ℕ → ℕ → WithTop α) (n last : ℕ) (used : List ℕ) (k : ℕ) (c : WithTop α)
    (h : greedyPick M n last used = (some k, c)) :
    k < n ∧ k ∉ used ∧ M last k = c ∧
    (∀ k2, k2 < n → k2 ∉ used → c ≤ M last k2) ∧
    (∀ k2, k2 < k → k2 ∉ used → c < M last k2) := by
  rcases pickAux_spec M last used n with ⟨heq, _⟩ | ⟨k0, heq, hk, hku, _hfin, hmin, htie⟩
  · rw [greedyPick, heq] at h
    exact absurd h (by simp)
  · rw [greedyPick, heq] at h
    obtain ⟨h1, h2⟩ : some k0 = some k ∧ M last k0 = c := Prod.mk.inj h
    have h1' : k0 = k := Option.some.inj h1
    subst h1'
    subst h2
    exact ⟨hk, hku, rfl, hmin, htie⟩

/-- Witness for C7 at a concrete matrix where candidates 1 and 2 tie with cost
5 and the scan picks the smaller id 1. -/
theorem C7_witness :
    greedyPick (fun _ k => if k = 0 then ((9 : ℚ) : WithTop ℚ) else ((5 : ℚ) : WithTop ℚ))
        3 0 [0] = (some 1, ((5 : ℚ) : WithTop ℚ)) ∧
    (1 < 3 ∧ (1 : ℕ) ∉ ([0] : List ℕ) ∧
      (fun (_ : ℕ) (k : ℕ) => if k = 0 then ((9 : ℚ) : WithTop ℚ) else ((5 : ℚ) : WithTop ℚ)) 0 1 =
        ((5 : ℚ) : WithTop ℚ) ∧
      (∀ k2, k2 < 3 → k2 ∉ ([0] : List ℕ) →
        ((5 : ℚ) : WithTop ℚ) ≤
          (fun (_ : ℕ) (k : ℕ) => if k = 0 then ((9 : ℚ) : WithTop ℚ) else ((5 : ℚ) : WithTop ℚ)) 0 k2) ∧
      (∀ k2, k2 < 1 → k2 ∉ ([0] : List ℕ) →
        ((5 : ℚ) : WithTop ℚ) <
          (fun (_ : ℕ) (k : ℕ) => if k = 0 then ((9 : ℚ) : WithTop ℚ) else ((5 : ℚ) : WithTop ℚ)) 0 k2)) :=
  ⟨by with_unfolding_all decide,
    C7_greedy_tiebreak (fun _ k => if k = 0 then ((9 : ℚ) : WithTop ℚ) else ((5 : ℚ) : WithTop ℚ))
      3 0 [0] 1 ((5 : ℚ) : WithTop ℚ) (by with_unfolding_all decide)⟩

lemma sad_sum_eq (hgt : ℕ) : ∀ (e1 e2 : List RGBT), e1.length = hgt → e2.length = hgt →
    ((List.range hgt).map (fun y => sadRow (e1.getD y (0, 0, 0)) (e2.getD y (0, 0, 0)))).sum =
    (List.zipWith sadRow e1 e2).sum := by
  induction hgt with
  | zero =>
    intro e1 e2 h1 h2
    rw [List.length_eq_zero] at h1 h2
    subst h1
    subst h2
    rfl
  | succ hgt ih =>
    intro e1 e2 h1 h2
    cases e1 with
    | nil => simp at h1
    | cons a t1 =>
      cases e2 with
      | nil => simp at h2
      | cons b t2 =>
        rw [List.range_succ_eq_map, List.map_cons, List.map_map, List.sum_cons,
          List.zipWith_cons_cons, List.sum_cons]
        congr 1
        have hcomp : ((fun y => sadRow ((a :: t1).getD y (0, 0, 0)) ((b :: t2).getD y (0, 0, 0)))
            ∘ Nat.succ) = (fun y => sadRow (t1.getD y (0, 0, 0)) (t2.getD y (0, 0, 0))) := rfl
        rw [hcomp]
        exact ih t1 t2 (by simpa using h1) (by simpa using h2)

section GreedyLemmas

variable {α : Type} [LinearOrderedAddCommMonoid α] (M : ℕ → ℕ → WithTop α)

lemma nodup_subset_perm_range (n : ℕ) (l : List ℕ) (hn : l.Nodup)
    (hsub : ∀ x ∈ l, x < n) (hlen : l.length = n) : List.Perm l (List.range n) := by
  have hsp : List.Subperm l (List.range n) :=
    hn.subperm (fun x hx => List.mem_range.mpr (hsub x hx))
  exact hsp.perm_of_length_le (by rw [List.length_range, hlen])

lemma greedyPick_some_spec (n last : ℕ) (used : List ℕ) (k : ℕ) (c : WithTop α)
    (h : greedyPick M n last used = (some k, c)) :
    k < n ∧ k ∉ used ∧ M last k = c ∧ c ≠ ⊤ ∧
    (∀ k2 < n, k2 ∉ used → c ≤ M last k2) := by
  rcases pickAux_spec M last used n with ⟨heq, _⟩ | ⟨k0, heq, hk, hku, hfin, hmin, _⟩
  · rw [greedyPick, heq] at h
    exact absurd h (by simp)
  · rw [greedyPick, heq] at h
    obtain ⟨h1, h2⟩ : some k0 = some k ∧ M last k0 = c := Prod.mk.inj h
    have h1' : k0 = k := Option.some.inj h1
    subst h1'
    subst h2
    exact ⟨hk, hku, rfl, hfin, hmin⟩

lemma greedyPick_none_spec (n last : ℕ) (used : List ℕ) (c : WithTop α)
    (h : greedyPick M n last used = (none, c)) :
    ∀ k < n, k ∉ used → M last k = ⊤ := by
  rcases pickAux_spec M last used n with ⟨heq, hall⟩ | ⟨k0, heq, _, _, _, _, _⟩
  · exact hall
  · rw [greedyPick, heq] at h
    exact absurd (Prod.mk.inj h).1 (by simp)

lemma buildChainAux_basic (n : ℕ) : ∀ fuel (chain : List ℕ) (last : ℕ) (tot : WithTop α),
    chain.Nodup → (∀ x ∈ chain, x < n) →
    ((buildChainAux M n fuel chain last tot).1.Nodup ∧
      (∀ x ∈ (buildChainAux M n fuel chain last tot).1, x < n)) := by
  intro fuel
  induction fuel with
  | zero => intro chain last tot h1 h2; exact ⟨h1, h2⟩
  | succ f ih =>
    intro chain last tot h1 h2
    rw [buildChainAux]
    by_cases hlen : chain.length < n
    · rw [if_pos hlen]
      rcases hpick : greedyPick M n last chain with ⟨ok, c⟩
      cases ok with
      | none => exact ⟨h1, h2⟩
      | some k =>
        obtain ⟨hk, hku, _, _, _⟩ := greedyPick_some_spec M n last chain k c hpick
        refine ih (chain ++ [k]) k (tot + c) ?_ ?_
        · simp [List.nodup_append, h1, hku]
        · intro x hx
          rcases List.mem_append.mp hx with hx | hx
          · exact h2 x hx
          · rw [List.mem_singleton.mp hx]; exact hk
    · rw [if_neg hlen]
      exact ⟨h1, h2⟩

lemma buildChainAux_complete (n : ℕ)
    (hoff : ∀ i < n, ∀ j < n, i ≠ j → M i j ≠ ⊤) :
    ∀ fuel (chain : List ℕ) (last : ℕ) (tot : WithTop α),
    chain.Nodup → (∀ x ∈ chain, x < n) → last ∈ chain →
    n ≤ chain.length + fuel → chain.length ≤ n → tot ≠ ⊤ →
    ((buildChainAux M n fuel chain last tot).1.length = n ∧
      (buildChainAux M n fuel chain last tot).2 ≠ ⊤) := by
  intro fuel
  induction fuel with
  | zero =>
    intro chain last tot _h1 _h2 _h3 h4 h5 h6
    exact ⟨by show chain.length = n; omega, h6⟩
  | succ f ih =>
    intro chain last tot h1 h2 h3 h4 h5 h6
    rw [buildChainAux]
    by_cases hlen : chain.length < n
    · rw [if_pos hlen]
      rcases hpick : greedyPick M n last chain with ⟨ok, c⟩
      cases ok with
      | none =>
        exfalso
        have hex : ∃ k, k < n ∧ k ∉ chain := by
          by_contra hno
          push_neg at hno
          have hsub : List.range n ⊆ chain := fun x hx => hno x (List.mem_range.mp hx)
          have hle := ((List.nodup_range n).subperm hsub).length_le
          rw [List.length_range] at hle
          omega
        obtain ⟨k, hk, hkc⟩ := hex
        have hlast : last < n := h2 last h3
        have hne : last ≠ k := fun he => hkc (he ▸ h3)
        exact hoff last hlast k hk hne (greedyPick_none_spec M n last chain c hpick k hk hkc)
      | some k =>
        obtain ⟨hk, hku, _hMc, hcfin, _⟩ := greedyPick_some_spec M n last chain k c hpick
        refine ih (chain ++ [k]) k (tot + c) ?_ ?_ ?_ ?_ ?_ ?_
        · simp [List.nodup_append, h1, hku]
        · intro x hx
          rcases List.mem_append.mp hx with hx | hx
          · exact h2 x hx
          · rw [List.mem_singleton.mp hx]; exact hk
        · exact List.mem_append.mpr (Or.inr (List.mem_singleton.mpr rfl))
        · rw [List.length_append, List.length_singleton]; omega
        · rw [List.length_append, List.length_singleton]; omega
        · exact WithTop.add_ne_top.mpr ⟨h6, hcfin⟩
    · rw [if_neg hlen]
      exact ⟨by show chain.length = n; omega, h6⟩

lemma greedyBest_perm_or_nil (n : ℕ) :
    greedyBest M n = [] ∨ List.Perm (greedyBest M n) (List.range n) := by
  rw [greedyBest]
  have key : ∀ (L : List ℕ) (best : List ℕ × WithTop α),
      (∀ s ∈ L, s < n) →
      (best.1 = [] ∨ List.Perm best.1 (List.range n)) →
      ((L.foldl (bestStep M n) best).1 = [] ∨
        List.Perm (L.foldl (bestStep M n) best).1 (List.range n)) := by
    intro L
    induction L with
    | nil => intro best _ h; exact h
    | cons s L ihL =>
      intro best hL h
      rw [List.foldl_cons]
      apply ihL _ (fun x hx => hL x (List.mem_cons_of_mem s hx))
      rw [bestStep]
      by_cases hc : (buildChain M n s).1.length = n ∧ (buildChain M n s).2 < best.2
      · rw [if_pos hc]
        right
        have hs : s < n := hL s (List.mem_cons_self s L)
        have hbasic := buildChainAux_basic M n n [s] s 0 (List.nodup_singleton s)
          (by intro x hx; rw [List.mem_singleton.mp hx]; exact hs)
        exact nodup_subset_perm_range n _ hbasic.1 hbasic.2 hc.1
      · rw [if_neg hc]; exact h
  exact key (List.range n) ([], ⊤) (fun s hs => List.mem_range.mp hs) (Or.inl rfl)

lemma greedyBest_complete (n : ℕ) (hn1 : 1 ≤ n)
    (hoff : ∀ i < n, ∀ j < n, i ≠ j → M i j ≠ ⊤) :
    (greedyBest M n).length = n := by
  rw [greedyBest]
  obtain ⟨m, rfl⟩ : ∃ m, n = m + 1 := ⟨n - 1, by omega⟩
  rw [List.range_succ_eq_map, List.foldl_cons]
  have hcomp := buildChainAux_complete M (m + 1) hoff (m + 1) [0] 0 0
    (List.nodup_singleton 0) (by intro x hx; rw [List.mem_singleton.mp hx]; omega)
    (List.mem_singleton.mpr rfl) (by rw [List.length_singleton]; omega)
    (by rw [List.length_singleton]; omega) (by simp)
  have hfirst : (bestStep M (m + 1) ([], ⊤) 0).1.length = m + 1 := by
    rw [bestStep]
    rw [if_pos ⟨hcomp.1, lt_top_iff_ne_top.mpr hcomp.2⟩]
    exact hcomp.1
  have key : ∀ (L : List ℕ) (best : List ℕ × WithTop α), best.1.length = m + 1 →
      (L.foldl (bestStep M (m + 1)) best).1.length = m + 1 := by
    intro L
    induction L with
    | nil => intro best h; exact h
    | cons s L ihL =>
      intro best h
      rw [List.foldl_cons]
      apply ihL
      rw [bestStep]
      by_cases hc : (buildChain M (m + 1) s).1.length = m + 1 ∧
          (buildChain M (m + 1) s).2 < best.2
      · rw [if_pos hc]; exact hc.1
      · rw [if_neg hc]; exact h
  exact key _ _ hfirst

end GreedyLemmas

section ExtractLemmas

lemma extractRGBAux_spec : ∀ (inputs : List (Option StripRGB)) (ch : Option ℕ)
    (acc strips : List StripRGB) (hgt : ℕ),
    extractRGBAux inputs ch acc = some (strips, hgt) →
    (strips.length = acc.length + inputs.length ∧
      (∀ s ∈ strips, s ∈ acc ∨ (some s ∈ inputs ∧ s.h = hgt)) ∧
      (∀ h0, ch = some h0 → h0 = hgt) ∧
      (∀ s : StripRGB, some s ∈ inputs → s ∈ strips) ∧
      (∀ s ∈ acc, s ∈ strips)) := by
  intro inputs
  induction inputs with
  | nil =>
    intro ch acc strips hgt h
    cases ch with
    | none => exact absurd h (by rw [extractRGBAux]; simp)
    | some h0 =>
      rw [extractRGBAux] at h
      obtain ⟨h1, h2⟩ : acc = strips ∧ h0 = hgt := Prod.mk.inj (Option.some.inj h)
      subst h1
      subst h2
      refine ⟨by simp, fun s hs => Or.inl hs, ?_, by simp, fun s hs => hs⟩
      intro h1 hh
      exact (Option.some.inj hh).symm
  | cons x rest ih =>
    intro ch acc strips hgt h
    cases x with
    | none => exact absurd h (by rw [extractRGBAux]; simp)
    | some s0 =>
      cases ch with
      | none =>
        rw [extractRGBAux] at h
        obtain ⟨hlen, hmem, hch, hall, hacc⟩ := ih (some s0.h) (acc ++ [s0]) strips hgt h
        have hs0 : s0 ∈ strips := hacc s0 (List.mem_append.mpr (Or.inr (List.mem_singleton.mpr rfl)))
        refine ⟨?_, ?_, ?_, ?_, ?_⟩
        · rw [List.length_append, List.length_singleton] at hlen
          rw [List.length_cons]
          omega
        · intro s hs
          rcases hmem s hs with hs' | hs'
          · rcases List.mem_append.mp hs' with h' | h'
            · exact Or.inl h'
            · rw [List.mem_singleton.mp h']
              exact Or.inr ⟨List.mem_cons_self _ _, hch s0.h rfl⟩
          · exact Or.inr ⟨List.mem_cons_of_mem _ hs'.1, hs'.2⟩
        · intro h0 hh
          exact absurd hh (by simp)
        · intro s hs
          rcases List.mem_cons.mp hs with h' | h'
          · rw [Option.some.inj h']
            exact hs0
          · exact hall s h'
        · intro s hs
          exact hacc s (List.mem_append.mpr (Or.inl hs))
      | some h0 =>
        rw [extractRGBAux] at h
        by_cases hsh : s0.h = h0
        · rw [if_pos hsh] at h
          obtain ⟨hlen, hmem, hch, hall, hacc⟩ := ih (some h0) (acc ++ [s0]) strips hgt h
          have hs0 : s0 ∈ strips :=
            hacc s0 (List.mem_append.mpr (Or.inr (List.mem_singleton.mpr rfl)))
          refine ⟨?_, ?_, ?_, ?_, ?_⟩
          · rw [List.length_append, List.length_singleton] at hlen
            rw [List.length_cons]
            omega
          · intro s hs
            rcases hmem s hs with hs' | hs'
            · rcases List.mem_append.mp hs' with h' | h'
              · exact Or.inl h'
              · rw [List.mem_singleton.mp h']
                refine Or.inr ⟨List.mem_cons_self _ _, ?_⟩
                rw [hsh]
                exact hch h0 rfl
            · exact Or.inr ⟨List.mem_cons_of_mem _ hs'.1, hs'.2⟩
          · intro h1 hh
            exact hch h1 hh
          · intro s hs
            rcases List.mem_cons.mp hs with h' | h'
            · rw [Option.some.inj h']
              exact hs0
            · exact hall s h'
          · intro s hs
            exact hacc s (List.mem_append.mpr (Or.inl hs))
        · rw [if_neg hsh] at h
          exact absurd h (by simp)

lemma extractGray_spec : ∀ (inputs : List (Option (List ℝ × List ℝ)))
    (strips : List (List ℝ × List ℝ)),
    extractGray inputs = some strips →
    (strips.length = inputs.length ∧
      (∀ s ∈ strips, some s ∈ inputs ∧ s.1.length ≠ 0) ∧
      (∀ s, some s ∈ inputs → s ∈ strips)) := by
  intro inputs
  induction inputs with
  | nil =>
    intro strips h
    rw [extractGray] at h
    have : strips = [] := (Option.some.inj h).symm
    subst this
    exact ⟨rfl, by simp, by simp⟩
  | cons x rest ih =>
    intro strips h
    cases x with
    | none => exact absurd h (by rw [extractGray]; simp)
    | some s0 =>
      rw [extractGray] at h
      by_cases h0 : s0.1.length = 0
      · rw [if_pos h0] at h
        exact absurd h (by simp)
      · rw [if_neg h0] at h
        obtain ⟨l, hl, hls⟩ := Option.map_eq_some'.mp h
        obtain ⟨hlen, hmem, hall⟩ := ih l hl
        subst hls
        refine ⟨by rw [List.length_cons, List.length_cons]; omega, ?_, ?_⟩
        · intro s hs
          rcases List.mem_cons.mp hs with h' | h'
          · subst h'
            exact ⟨List.mem_cons_self _ _, h0⟩
          · obtain ⟨hin, hne⟩ := hmem s h'
            exact ⟨List.mem_cons_of_mem _ hin, hne⟩
        · intro s hs
          rcases List.mem_cons.mp hs with h' | h'
          · rw [Option.some.inj h']
            exact List.mem_cons_self _ _
          · exact List.mem_cons_of_mem _ (hall s h')

end ExtractLemmas

section TwoOptPermLemmas

variable {α : Type} [LinearOrderedField α] (M : ℕ → ℕ → WithTop α) (eps : α)

lemma twoOptPass_perm (n : ℕ) (p : List ℕ) :
    List.Perm (twoOptPass M eps n p).1 p := by
  refine twoOptPass_inv M eps n p (fun st => List.Perm st.1 p) ?_ (List.Perm.refl p)
  intro i j st _hi hij _hj hst
  obtain ⟨q, md, imp⟩ := st
  rw [twoStep_def]
  split
  · exact (reverseSegment_perm q i j (by omega)).trans hst
  · exact hst

lemma twoOptAux_perm (n : ℕ) : ∀ fuel p, List.Perm (twoOptAux M eps n fuel p) p := by
  intro fuel
  induction fuel with
  | zero => intro p; exact List.Perm.refl p
  | succ f ih =>
    intro p
    have hpass := twoOptPass_perm M eps n p
    rcases hq : twoOptPass M eps n p with ⟨q, md, imp⟩
    rw [hq] at hpass
    simp only [twoOptAux, hq]
    cases imp with
    | false => exact List.Perm.refl p
    | true =>
      simp only [if_true]
      exact (ih q).trans hpass

lemma twoOpt_perm (n fuel : ℕ) (p : List ℕ) :
    List.Perm (twoOpt M eps n fuel p) p := by
  rw [twoOpt]
  by_cases h4 : n < 4
  · rw [if_pos h4]
  · rw [if_neg h4]
    exact twoOptAux_perm M eps n fuel p

end TwoOptPermLemmas

section PipelineLemmas

lemma sadRow_nonneg (p q : RGBT) : 0 ≤ sadRow p q := by
  rw [sadRow]
  positivity

lemma sadSurprise_extract_none (inputs : List (Option StripRGB))
    (hn2 : 2 ≤ inputs.length) (hex : extractRGB inputs = none) :
    sadSurprise inputs = .ok (List.range inputs.length) := by
  rw [sadSurprise]
  simp only [if_neg (by omega : ¬ inputs.length = 0), if_neg (by omega : ¬ inputs.length = 1), hex]

lemma sadSurprise_eq (inputs : List (Option StripRGB)) (strips : List StripRGB)
    (hgt : ℕ) (Mv : ℕ → ℕ → WithTop ℤ) (hn2 : 2 ≤ inputs.length)
    (hex : extractRGB inputs = some (strips, hgt)) (hh : hgt ≠ 0)
    (hM : buildMatrixSad strips inputs.length hgt = .ok Mv) :
    sadSurprise inputs =
      (if greedyBest Mv inputs.length = [] then .ok (List.range inputs.length)
       else .ok (greedyBest Mv inputs.length)) := by
  rw [sadSurprise]
  simp only [if_neg (by omega : ¬ inputs.length = 0), if_neg (by omega : ¬ inputs.length = 1),
    hex, if_neg hh, hM]

lemma nccSurprise_extract_none (fuel : ℕ) (inputs : List (Option (List ℝ × List ℝ)))
    (hn2 : 2 ≤ inputs.length) (hex : extractGray inputs = none) :
    nccSurprise fuel inputs = .ok (List.range inputs.length) := by
  rw [nccSurprise]
  simp only [if_neg (by omega : ¬ inputs.length = 0), if_neg (by omega : ¬ inputs.length = 1), hex]

lemma nccSurprise_eq (fuel : ℕ) (inputs : List (Option (List ℝ × List ℝ)))
    (strips : List (List ℝ × List ℝ)) (Mv : ℕ → ℕ → WithTop ℝ)
    (hn2 : 2 ≤ inputs.length)
    (hex : extractGray inputs = some strips)
    (hM : buildMatrixNcc strips inputs.length = .ok Mv) :
    nccSurprise fuel inputs =
      .ok (twoOpt Mv (eps9 ℝ) inputs.length fuel
        (if greedyBest Mv inputs.length = [] then List.range inputs.length
         else greedyBest Mv inputs.length)) := by
  rw [nccSurprise]
  simp only [if_neg (by omega : ¬ inputs.length = 0), if_neg (by omega : ¬ inputs.length = 1),
    hex, hM]

lemma nccSurprise_matrix_error (fuel : ℕ) (inputs : List (Option (List ℝ × List ℝ)))
    (strips : List (List ℝ × List ℝ))
    (hn2 : 2 ≤ inputs.length)
    (hex : extractGray inputs = some strips)
    (hM : buildMatrixNcc strips inputs.length = .error ()) :
    nccSurprise fuel inputs = .error () := by
  rw [nccSurprise]
  simp only [if_neg (by omega : ¬ inputs.length = 0), if_neg (by omega : ¬ inputs.length = 1),
    hex, hM]

lemma nccCost_ok_of_eq_length (e1 e2 : List ℝ) (h : e1.length = e2.length) :
    ∃ v, nccCost e1 e2 = .ok v := by
  rw [nccCost]
  by_cases h0 : e1.length = 0 ∨ e2.length = 0
  · rw [if_pos h0]; exact ⟨2, rfl⟩
  · rw [if_neg h0]
    by_cases hff : lstd e1 < eps9 ℝ ∧ lstd e2 < eps9 ℝ
    · rw [if_pos hff]; exact ⟨_, rfl⟩
    · rw [if_neg hff]
      by_cases hof : lstd e1 < eps9 ℝ ∨ lstd e2 < eps9 ℝ
      · rw [if_pos hof]; exact ⟨1, rfl⟩
      · rw [if_neg hof, if_neg (by simp [h])]
        exact ⟨_, rfl⟩

lemma nccCost_error_of (e1 e2 : List ℝ) (h1 : e1.length ≠ 0) (h2 : e2.length ≠ 0)
    (hs1 : ¬ lstd e1 < eps9 ℝ) (hs2 : ¬ lstd e2 < eps9 ℝ)
    (hne : e1.length ≠ e2.length) :
    nccCost e1 e2 = .error () := by
  rw [nccCost, if_neg (by simp [h1, h2]), if_neg (by simp [hs1, hs2]),
    if_neg (by simp [hs1, hs2]), if_pos hne]

end PipelineLemmas

section RealValueLemmas

lemma lstd_nil : lstd [] = 0 := by
  simp [lstd, lmean]

lemma lmean_pair (a b : ℝ) : lmean [a, b] = (a + b) / 2 := by
  rw [lmean]
  norm_num

lemma lstd_pair (a b : ℝ) : lstd [a, b] = |a - b| / 2 := by
  have hm : lmean [a, b] = (a + b) / 2 := lmean_pair a b
  simp only [lstd, hm, List.map_cons, List.map_nil, List.sum_cons, List.sum_nil,
    List.length_cons, List.length_nil]
  norm_num
  rw [show (a - (a + b) / 2) ^ 2 + (b - (a + b) / 2) ^ 2 = ((a - b) / 2) ^ 2 * 2 by ring]
  rw [Real.sqrt_mul (sq_nonneg _), mul_div_assoc,
    div_self (by positivity : Real.sqrt 2 ≠ 0), mul_one,
    Real.sqrt_sq_eq_abs, abs_div]
  norm_num

lemma lmean_quad (a b : ℝ) : lmean [a, a, b, b] = (a + b) / 2 := by
  rw [lmean]
  norm_num
  ring

lemma lstd_quad (a b : ℝ) : lstd [a, a, b, b] = |a - b| / 2 := by
  have hm : lmean [a, a, b, b] = (a + b) / 2 := lmean_quad a b
  simp only [lstd, hm, List.map_cons, List.map_nil, List.sum_cons, List.sum_nil,
    List.length_cons, List.length_nil]
  norm_num
  rw [show (a - (a + b) / 2) ^ 2 + ((a - (a + b) / 2) ^ 2 + ((b - (a + b) / 2) ^ 2 +
      (b - (a + b) / 2) ^ 2)) = ((a - b) / 2) ^ 2 * 4 by ring]
  rw [Real.sqrt_mul (sq_nonneg _), mul_div_assoc,
    div_self (by positivity : Real.sqrt 4 ≠ 0), mul_one,
    Real.sqrt_sq_eq_abs, abs_div]
  norm_num

end RealValueLemmas

/-- C10: once extraction succeeds for `surprise_manager.py` (all slices
decoded, consistent nonzero height, so the cost-matrix build returns a
matrix), every off-diagonal entry of that matrix is a finite non-negative
value, every greedy start id completes a full chain of length `n`, the
cheapest complete chain is nonempty, and `surprise` returns it — the
"could not form a complete permutation" identity fallback after the greedy
loop is unreachable. -/
theorem C10_sad_no_fallback (inputs : List (Option StripRGB)) (strips : List StripRGB)
    (hgt : ℕ) (M : ℕ → ℕ → WithTop ℤ)
    (hn2 : 2 ≤ inputs.length)
    (hex : extractRGB inputs = some (strips, hgt))
    (hh : hgt ≠ 0)
    (hM : buildMatrixSad strips inputs.length hgt = .ok M) :
    (∀ i < inputs.length, ∀ j < inputs.length, i ≠ j → M i j ≠ ⊤ ∧ 0 ≤ M i j) ∧
    (∀ s < inputs.length, (buildChain M inputs.length s).1.length = inputs.length) ∧
    greedyBest M inputs.length ≠ [] ∧
    sadSurprise inputs = .ok (greedyBest M inputs.length) := by
  have hok : sadOk strips inputs.length hgt := by
    by_contra hno
    rw [buildMatrixSad, if_neg hno] at hM
    exact absurd hM (by simp)
  have hMeq : M = fun i j =>
      if i = j ∨ inputs.length ≤ i ∨ inputs.length ≤ j then (⊤ : WithTop ℤ)
      else
        match sadDiff (strips.getD i default).right (strips.getD j default).left hgt with
        | .ok v => (v : WithTop ℤ)
        | .error _ => ⊤ := by
    rw [buildMatrixSad, if_pos hok] at hM
    exact (Except.ok.inj hM).symm
  have hoff : ∀ i < inputs.length, ∀ j < inputs.length, i ≠ j → M i j ≠ ⊤ ∧ 0 ≤ M i j := by
    intro i hi j hj hij
    obtain ⟨hr, hl⟩ := hok i hi j hj hij
    have hdiff : sadDiff (strips.getD i default).right (strips.getD j default).left hgt =
        .ok (((List.range hgt).map (fun y =>
          sadRow ((strips.getD i default).right.getD y (0, 0, 0))
            ((strips.getD j default).left.getD y (0, 0, 0)))).sum) := by
      rw [sadDiff, if_neg (by push_neg; exact ⟨hr, hl⟩)]
    rw [hMeq]
    simp only [if_neg (by omega : ¬ (i = j ∨ inputs.length ≤ i ∨ inputs.length ≤ j)), hdiff]
    constructor
    · exact WithTop.coe_ne_top
    · have hnn : (0 : ℤ) ≤ ((List.range hgt).map (fun y =>
          sadRow ((strips.getD i default).right.getD y (0, 0, 0))
            ((strips.getD j default).left.getD y (0, 0, 0)))).sum := by
        apply List.sum_nonneg
        intro x hx
        obtain ⟨y, _, hy⟩ := List.mem_map.mp hx
        rw [← hy]
        exact sadRow_nonneg _ _
      exact_mod_cast hnn
  have hoff' : ∀ i < inputs.length, ∀ j < inputs.length, i ≠ j → M i j ≠ ⊤ :=
    fun i hi j hj hij => (hoff i hi j hj hij).1
  have hchain : ∀ s < inputs.length,
      (buildChain M inputs.length s).1.length = inputs.length := by
    intro s hs
    exact (buildChainAux_complete M inputs.length hoff' inputs.length [s] s 0
      (List.nodup_singleton s)
      (by intro x hx; rw [List.mem_singleton.mp hx]; exact hs)
      (List.mem_singleton.mpr rfl)
      (by rw [List.length_singleton]; omega)
      (by rw [List.length_singleton]; omega)
      (by simp)).1
  have hbestlen : (greedyBest M inputs.length).length = inputs.length :=
    greedyBest_complete M inputs.length (by omega) hoff'
  have hbest : greedyBest M inputs.length ≠ [] := by
    intro hnil
    rw [hnil] at hbestlen
    simp only [List.length_nil] at hbestlen
    omega
  refine ⟨hoff, hchain, hbest, ?_⟩
  rw [sadSurprise_eq inputs strips hgt M hn2 hex hh hM, if_neg hbest]

/-- Witness for C10 at two concrete one-pixel strips of height 1. -/
theorem C10_witness :
    (∀ i < 2, ∀ j < 2, i ≠ j → mW10 i j ≠ ⊤ ∧ 0 ≤ mW10 i j) ∧
    (∀ s < 2, (buildChain mW10 2 s).1.length = 2) ∧
    greedyBest mW10 2 ≠ [] ∧
    sadSurprise [some ⟨[(0, 0, 0)], [(0, 0, 0)], 1⟩, some ⟨[(5, 5, 5)], [(5, 5, 5)], 1⟩] =
      .ok (greedyBest mW10 2) :=
  C10_sad_no_fallback
    [some ⟨[(0, 0, 0)], [(0, 0, 0)], 1⟩, some ⟨[(5, 5, 5)], [(5, 5, 5)], 1⟩]
    stripsW10 1 mW10 (by decide) (by with_unfolding_all rfl) (by omega)
    (by rw [buildMatrixSad, if_pos (by with_unfolding_all decide)]; rfl)

/-- C8 (counterexample): `_calculate_edge_difference` raises on two edges of
the same length 2 when the `height` argument is 3 (so failing is not
equivalent to the edges having different lengths), and the numpy variant
broadcasts a length-1 edge against a length-2 edge without raising (so
different lengths do not force a failure either). -/
theorem C8_counterexample :
    ([((0 : ℤ), (0 : ℤ), (0 : ℤ)), ((0 : ℤ), (0 : ℤ), (0 : ℤ))] : List RGBT).length =
      ([((1 : ℤ), (2 : ℤ), (3 : ℤ)), ((4 : ℤ), (5 : ℤ), (6 : ℤ))] : List RGBT).length ∧
    sadDiff [((0 : ℤ), (0 : ℤ), (0 : ℤ)), ((0 : ℤ), (0 : ℤ), (0 : ℤ))]
      [((1 : ℤ), (2 : ℤ), (3 : ℤ)), ((4 : ℤ), (5 : ℤ), (6 : ℤ))] 3 = .error () ∧
    ([((0 : ℤ), (0 : ℤ), (0 : ℤ))] : List RGBT).length ≠
      ([((1 : ℤ), (1 : ℤ), (1 : ℤ)), ((2 : ℤ), (2 : ℤ), (2 : ℤ))] : List RGBT).length ∧
    sadNumpy [((0 : ℤ), (0 : ℤ), (0 : ℤ))]
      [((1 : ℤ), (1 : ℤ), (1 : ℤ)), ((2 : ℤ), (2 : ℤ), (2 : ℤ))] = .ok 9 :=
  ⟨rfl, by with_unfolding_all rfl, by decide, by with_unfolding_all rfl⟩

/-- C8 (amended): `_calculate_edge_difference` raises exactly when either edge
list's length differs from its `height` argument (equal-length edges of the
wrong height still raise), and otherwise returns the sum over rows of the
per-channel absolute differences; the numpy variant raises exactly when the
lengths differ and neither is 1 (numpy broadcasting), and on equal lengths
returns the same row sum. -/
theorem C8_amended :
    (∀ (e1 e2 : List RGBT) (hgt : ℕ),
      (sadDiff e1 e2 hgt = .error () ↔ e1.length ≠ hgt ∨ e2.length ≠ hgt) ∧
      (e1.length = hgt → e2.length = hgt →
        sadDiff e1 e2 hgt = .ok ((List.zipWith sadRow e1 e2).sum))) ∧
    (∀ (e1 e2 : List RGBT),
      (sadNumpy e1 e2 = .error () ↔
        e1.length ≠ e2.length ∧ e1.length ≠ 1 ∧ e2.length ≠ 1) ∧
      (e1.length = e2.length → sadNumpy e1 e2 = .ok ((List.zipWith sadRow e1 e2).sum))) := by
  constructor
  · intro e1 e2 hgt
    constructor
    · rw [sadDiff]
      by_cases hcond : e1.length ≠ hgt ∨ e2.length ≠ hgt
      · rw [if_pos hcond]
        exact ⟨fun _ => hcond, fun _ => rfl⟩
      · rw [if_neg hcond]
        exact ⟨fun h => absurd h (by simp), fun h => absurd h hcond⟩
    · intro h1 h2
      rw [sadDiff, if_neg (by simp [h1, h2]), sad_sum_eq hgt e1 e2 h1 h2]
  · intro e1 e2
    constructor
    · rw [sadNumpy]
      by_cases h : e1.length = e2.length
      · rw [if_pos h]
        exact ⟨fun hc => absurd hc (by simp), fun hc => absurd h hc.1⟩
      · rw [if_neg h]
        by_cases h1 : e1.length = 1
        · rw [if_pos h1]
          exact ⟨fun hc => absurd hc (by simp), fun hc => absurd h1 hc.2.1⟩
        · rw [if_neg h1]
          by_cases h2 : e2.length = 1
          · rw [if_pos h2]
            exact ⟨fun hc => absurd hc (by simp), fun hc => absurd h2 hc.2.2⟩
          · rw [if_neg h2]
            exact ⟨fun _ => ⟨h, h1, h2⟩, fun _ => rfl⟩
    · intro h
      rw [sadNumpy, if_pos h]

/-- Witness for C8 (amended) at concrete equal-height edges. -/
theorem C8_witness :
    sadDiff [((1 : ℤ), (1 : ℤ), (1 : ℤ))] [((2 : ℤ), (3 : ℤ), (4 : ℤ))] 1 =
      .ok ((List.zipWith sadRow [((1 : ℤ), (1 : ℤ), (1 : ℤ))]
        [((2 : ℤ), (3 : ℤ), (4 : ℤ))]).sum) :=
  (C8_amended.1 [((1 : ℤ), (1 : ℤ), (1 : ℤ))] [((2 : ℤ), (3 : ℤ), (4 : ℤ))] 1).2 rfl rfl

/-- C9: for every cost matrix, every fuel budget and every input permutation of
length `n`, the permutation returned by the 2-opt refiner has the same first
element and the same last element as the input permutation: only interior
segments `p[i+1..j]` with `j ≤ n-2` are ever reversed. -/
theorem C9_twoopt_preserves_ends {α : Type} [LinearOrderedField α]
    (M : ℕ → ℕ → WithTop α) (n fuel : ℕ) (p : List ℕ) (hn : p.length = n) :
    (twoOpt M (eps9 α) n fuel p).head? = p.head? ∧
    (twoOpt M (eps9 α) n fuel p).getLast? = p.getLast? := by
  rw [twoOpt]
  by_cases h4 : n < 4
  · rw [if_pos h4]; exact ⟨rfl, rfl⟩
  · rw [if_neg h4]
    obtain ⟨_, h2, h3⟩ := twoOptAux_ends M (eps9 α) n fuel p hn
    exact ⟨h2, h3⟩

/-- Witness for C9 at a concrete matrix, length and fuel. -/
theorem C9_witness :
    ([0, 1, 2, 3, 4] : List ℕ).length = 5 ∧
    (twoOpt mc3 (eps9 ℚ) 5 9 [0, 1, 2, 3, 4]).head? = ([0, 1, 2, 3, 4] : List ℕ).head? ∧
    (twoOpt mc3 (eps9 ℚ) 5 9 [0, 1, 2, 3, 4]).getLast? = ([0, 1, 2, 3, 4] : List ℕ).getLast? :=
  ⟨rfl, C9_twoopt_preserves_ends mc3 5 9 [0, 1, 2, 3, 4] rfl⟩


section ClaimHelpers

lemma eps9_real : eps9 ℝ = 1 / 1000000000 := rfl

lemma two_mem_two_le_length {β : Type} : ∀ (l : List β) (x y : β),
    x ∈ l → y ∈ l → x ≠ y → 2 ≤ l.length := by
  intro l x y hx hy hne
  cases l with
  | nil => exact absurd hx (List.not_mem_nil x)
  | cons a t =>
    cases t with
    | nil =>
      rw [List.mem_singleton] at hx hy
      exact absurd (hx.trans hy.symm) hne
    | cons b u =>
      simp only [List.length_cons]
      omega

lemma nonflat_nonempty (e : List ℝ) (h : ¬ lstd e < eps9 ℝ) : e.length ≠ 0 := by
  intro h0
  apply h
  rw [List.length_eq_zero.mp h0, lstd_nil, eps9_real]
  norm_num

end ClaimHelpers

/-- C6 (counterexample): the claim quantifies over every pair of grayscale
edge sequences and says the cost is always in `[0, 2]` (with the
non-degenerate case returning `1 - clip(pearson, -1, 1)`).  On the two
non-flat edges `[0, 2]` and `[0, 0, 2, 2]` — edges of strips decoded at
heights 2 and 4 — `_calculate_ncc_cost` passes the flat-edge checks and then
raises a broadcast `ValueError` at the elementwise product, so it returns no
cost at all, and in particular not `1 - clip(pearson)`. -/
theorem C6_counterexample :
    ¬ lstd [(0 : ℝ), 2] < eps9 ℝ ∧
    ¬ lstd [(0 : ℝ), 0, 2, 2] < eps9 ℝ ∧
    nccCost [(0 : ℝ), 2] [0, 0, 2, 2] = .error () ∧
    nccCost [(0 : ℝ), 2] [0, 0, 2, 2] ≠
      .ok (1 - clampR (pearsonSpec [(0 : ℝ), 2] [0, 0, 2, 2])) := by
  have hs1 : ¬ lstd [(0 : ℝ), 2] < eps9 ℝ := by
    rw [lstd_pair, eps9_real]; norm_num
  have hs2 : ¬ lstd [(0 : ℝ), 0, 2, 2] < eps9 ℝ := by
    rw [lstd_quad, eps9_real]; norm_num
  have herr : nccCost [(0 : ℝ), 2] [0, 0, 2, 2] = .error () :=
    nccCost_error_of _ _ (by norm_num) (by norm_num) hs1 hs2 (by norm_num)
  refine ⟨hs1, hs2, herr, ?_⟩
  rw [herr]
  simp

/-- C6 (amended): every value the NCC cost function returns lies in `[0, 2]`,
and the degenerate policy is as claimed (both edges flat: `0` iff means within
epsilon else `1`; exactly one flat: `1`); on non-degenerate edges of equal
length a value is returned — but on non-degenerate edges of different lengths
the call raises instead of returning a value, so the claim's "for every pair"
fails. -/
theorem C6_amended (e1 e2 : List ℝ) :
    (∀ r, nccCost e1 e2 = .ok r → 0 ≤ r ∧ r ≤ 2) ∧
    (e1 ≠ [] → e2 ≠ [] → lstd e1 < eps9 ℝ → lstd e2 < eps9 ℝ →
      nccCost e1 e2 = .ok (if |lmean e1 - lmean e2| < eps9 ℝ then 0 else 1)) ∧
    (e1 ≠ [] → e2 ≠ [] → lstd e1 < eps9 ℝ → ¬ lstd e2 < eps9 ℝ →
      nccCost e1 e2 = .ok 1) ∧
    (e1 ≠ [] → e2 ≠ [] → ¬ lstd e1 < eps9 ℝ → lstd e2 < eps9 ℝ →
      nccCost e1 e2 = .ok 1) ∧
    (e1.length = e2.length → ¬ lstd e1 < eps9 ℝ → ¬ lstd e2 < eps9 ℝ →
      ∃ v, nccCost e1 e2 = .ok v) ∧
    (e1.length ≠ e2.length → ¬ lstd e1 < eps9 ℝ → ¬ lstd e2 < eps9 ℝ →
      nccCost e1 e2 = .error ()) := by
  refine ⟨?_, ?_, ?_, ?_, ?_, ?_⟩
  · intro r hr
    rw [nccCost] at hr
    by_cases h0 : e1.length = 0 ∨ e2.length = 0
    · rw [if_pos h0] at hr
      obtain rfl := Except.ok.inj hr
      norm_num
    · rw [if_neg h0] at hr
      by_cases hff : lstd e1 < eps9 ℝ ∧ lstd e2 < eps9 ℝ
      · rw [if_pos hff] at hr
        by_cases hmm : |lmean e1 - lmean e2| < eps9 ℝ
        · rw [if_pos hmm] at hr
          obtain rfl := Except.ok.inj hr
          norm_num
        · rw [if_neg hmm] at hr
          obtain rfl := Except.ok.inj hr
          norm_num
      · rw [if_neg hff] at hr
        by_cases hof : lstd e1 < eps9 ℝ ∨ lstd e2 < eps9 ℝ
        · rw [if_pos hof] at hr
          obtain rfl := Except.ok.inj hr
          norm_num
        · rw [if_neg hof] at hr
          by_cases hne : e1.length ≠ e2.length
          · rw [if_pos hne] at hr
            exact absurd hr (by simp)
          · rw [if_neg hne] at hr
            have h6 : -1 ≤ clampR (lmean (List.zipWith
                (fun x y => ((x - lmean e1) / (lstd e1 + eps9 ℝ)) *
                  ((y - lmean e2) / (lstd e2 + eps9 ℝ))) e1 e2)) := le_max_left _ _
            have h7 : clampR (lmean (List.zipWith
                (fun x y => ((x - lmean e1) / (lstd e1 + eps9 ℝ)) *
                  ((y - lmean e2) / (lstd e2 + eps9 ℝ))) e1 e2)) ≤ 1 :=
              max_le (by norm_num) (min_le_right _ _)
            have hval := Except.ok.inj hr
            constructor <;> linarith
  · intro h1 h2 hf1 hf2
    rw [nccCost, if_neg (by simp [List.length_eq_zero, h1, h2]), if_pos ⟨hf1, hf2⟩]
  · intro h1 h2 hf1 hf2
    rw [nccCost, if_neg (by simp [List.length_eq_zero, h1, h2]),
      if_neg (fun h => hf2 h.2), if_pos (Or.inl hf1)]
  · intro h1 h2 hf1 hf2
    rw [nccCost, if_neg (by simp [List.length_eq_zero, h1, h2]),
      if_neg (fun h => hf1 h.1), if_pos (Or.inr hf2)]
  · intro hlen _hf1 _hf2
    exact nccCost_ok_of_eq_length e1 e2 hlen
  · intro hlen hf1 hf2
    exact nccCost_error_of e1 e2 (nonflat_nonempty e1 hf1) (nonflat_nonempty e2 hf2)
      hf1 hf2 hlen

/-- Witness for C6: a flat edge against a non-flat edge yields cost 1. -/
theorem C6_witness : nccCost [(5 : ℝ), 5] [0, 2] = .ok 1 :=
  (C6_amended [(5 : ℝ), 5] [0, 2]).2.2.1 (by simp) (by simp)
    (by rw [lstd_pair]; norm_num [eps9_real])
    (by rw [lstd_pair]; norm_num [eps9_real])

/-- C1 (counterexample): `surprise` of `surprise_manager_new.py` CAN raise to
its caller.  Two strips that decode to heights 2 and 4 with non-flat edges
pass the extraction (the height check is commented out), and the cost-matrix
build then calls `_calculate_ncc_cost` on edges of lengths 2 and 4, whose
elementwise product raises a broadcast `ValueError` outside any `try`. -/
theorem C1_counterexample :
    nccSurprise 2 [some ([(0 : ℝ), 100], [0, 100]),
      some ([0, 0, 100, 100], [0, 0, 100, 100])] = .error () := by
  have hs1 : ¬ lstd [(0 : ℝ), 100] < eps9 ℝ := by
    rw [lstd_pair, eps9_real]; norm_num
  have hs2 : ¬ lstd [(0 : ℝ), 0, 100, 100] < eps9 ℝ := by
    rw [lstd_quad, eps9_real]; norm_num
  have hnok : ¬ nccPairOk [([(0 : ℝ), 100], [0, 100]),
      ([0, 0, 100, 100], [0, 0, 100, 100])] 2 := by
    intro hok
    obtain ⟨v, hv⟩ := hok 0 (by norm_num) 1 (by norm_num) (by norm_num)
    have hv' : nccCost [(0 : ℝ), 100] [0, 0, 100, 100] = .ok v := hv
    rw [nccCost_error_of _ _ (by norm_num) (by norm_num) hs1 hs2 (by norm_num)] at hv'
    exact absurd hv' (by simp)
  apply nccSurprise_matrix_error 2
    [some ([(0 : ℝ), 100], [0, 100]), some ([0, 0, 100, 100], [0, 0, 100, 100])]
    [([(0 : ℝ), 100], [0, 100]), ([0, 0, 100, 100], [0, 0, 100, 100])] (by norm_num) rfl
  show buildMatrixNcc [([(0 : ℝ), 100], [0, 100]), ([0, 0, 100, 100], [0, 0, 100, 100])] 2 =
    Except.error ()
  rw [buildMatrixNcc, if_neg hnok]

/-- C1 (amended): under the extractor contract — for `surprise_manager.py`
every decoded strip's edge lists have the strip's reported height, for
`surprise_manager_new.py` any decoded right edge has the length of any
decoded left edge — `surprise` returns, without raising, a permutation of
`0..n-1` (without the contract the cost-matrix build can raise, see the
counterexample). -/
theorem C1_amended :
    (∀ inputs : List (Option StripRGB),
      (∀ s : StripRGB, some s ∈ inputs → s.left.length = s.h ∧ s.right.length = s.h) →
      ∃ out, sadSurprise inputs = .ok out ∧ List.Perm out (List.range inputs.length)) ∧
    (∀ fuel : ℕ, ∀ inputs : List (Option (List ℝ × List ℝ)),
      (∀ a b : List ℝ × List ℝ, some a ∈ inputs → some b ∈ inputs →
        a.2.length = b.1.length) →
      ∃ out, nccSurprise fuel inputs = .ok out ∧ List.Perm out (List.range inputs.length)) := by
  constructor
  · intro inputs hcon
    by_cases hn0 : inputs.length = 0
    · refine ⟨[], by rw [sadSurprise, if_pos hn0], ?_⟩
      rw [hn0]
      exact List.Perm.refl _
    · by_cases hn1 : inputs.length = 1
      · refine ⟨[0], by rw [sadSurprise, if_neg hn0, if_pos hn1], ?_⟩
        rw [hn1]
        exact List.Perm.refl _
      · have hn2 : 2 ≤ inputs.length := by omega
        cases hex : extractRGB inputs with
        | none =>
          exact ⟨_, sadSurprise_extract_none inputs hn2 hex, List.Perm.refl _⟩
        | some sh =>
          obtain ⟨strips, hgt⟩ := sh
          obtain ⟨hlen, hmem, _, _, _⟩ := extractRGBAux_spec inputs none [] strips hgt hex
          simp only [List.length_nil, Nat.zero_add] at hlen
          by_cases hh : hgt = 0
          · refine ⟨List.range inputs.length, ?_, List.Perm.refl _⟩
            rw [sadSurprise]
            simp only [if_neg hn0, if_neg hn1, hex, if_pos hh]
          · have hok : sadOk strips inputs.length hgt := by
              intro i hi j hj _hij
              have hi' : i < strips.length := by omega
              have hj' : j < strips.length := by omega
              have hgi : strips.getD i default ∈ strips := by
                rw [List.getD_eq_getElem strips default hi']
                exact List.getElem_mem hi'
              have hgj : strips.getD j default ∈ strips := by
                rw [List.getD_eq_getElem strips default hj']
                exact List.getElem_mem hj'
              constructor
              · rcases hmem _ hgi with habs | ⟨hin, hheq⟩
                · exact absurd habs (List.not_mem_nil _)
                · rw [(hcon _ hin).2, hheq]
              · rcases hmem _ hgj with habs | ⟨hin, hheq⟩
                · exact absurd habs (List.not_mem_nil _)
                · rw [(hcon _ hin).1, hheq]
            rcases hbm : buildMatrixSad strips inputs.length hgt with e | M
            · rw [buildMatrixSad, if_pos hok] at hbm
              exact absurd hbm (by simp)
            · have heq := sadSurprise_eq inputs strips hgt M hn2 hex hh hbm
              by_cases hgb : greedyBest M inputs.length = []
              · rw [if_pos hgb] at heq
                exact ⟨_, heq, List.Perm.refl _⟩
              · rw [if_neg hgb] at heq
                rcases greedyBest_perm_or_nil M inputs.length with hnil | hperm
                · exact absurd hnil hgb
                · exact ⟨_, heq, hperm⟩
  · intro fuel inputs hcon
    by_cases hn0 : inputs.length = 0
    · refine ⟨[], by rw [nccSurprise, if_pos hn0], ?_⟩
      rw [hn0]
      exact List.Perm.refl _
    · by_cases hn1 : inputs.length = 1
      · refine ⟨[0], by rw [nccSurprise, if_neg hn0, if_pos hn1], ?_⟩
        rw [hn1]
        exact List.Perm.refl _
      · have hn2 : 2 ≤ inputs.length := by omega
        cases hex : extractGray inputs with
        | none =>
          exact ⟨_, nccSurprise_extract_none fuel inputs hn2 hex, List.Perm.refl _⟩
        | some strips =>
          obtain ⟨hlen, hmem, _⟩ := extractGray_spec inputs strips hex
          have hok : nccPairOk strips inputs.length := by
            intro i hi j hj _hij
            have hi' : i < strips.length := by omega
            have hj' : j < strips.length := by omega
            have hgi : strips.getD i ([], []) ∈ strips := by
              rw [List.getD_eq_getElem strips ([], []) hi']
              exact List.getElem_mem hi'
            have hgj : strips.getD j ([], []) ∈ strips := by
              rw [List.getD_eq_getElem strips ([], []) hj']
              exact List.getElem_mem hj'
            exact nccCost_ok_of_eq_length _ _ (hcon _ _ (hmem _ hgi).1 (hmem _ hgj).1)
          rcases hbm : buildMatrixNcc strips inputs.length with e | M
          · rw [buildMatrixNcc, if_pos hok] at hbm
            exact absurd hbm (by simp)
          · refine ⟨_, nccSurprise_eq fuel inputs strips M hn2 hex hbm, ?_⟩
            by_cases hgb : greedyBest M inputs.length = []
            · rw [if_pos hgb]
              exact twoOpt_perm M (eps9 ℝ) inputs.length fuel _
            · rw [if_neg hgb]
              rcases greedyBest_perm_or_nil M inputs.length with hnil | hperm
              · exact absurd hnil hgb
              · exact (twoOpt_perm M (eps9 ℝ) inputs.length fuel _).trans hperm

/-- Witness for C1 at two decoded grayscale strips of equal height 2. -/
theorem C1_witness :
    ∃ out, nccSurprise 3 [some ([(0 : ℝ), 5], [0, 5]), some ([7, 2], [7, 2])] = .ok out ∧
      List.Perm out (List.range 2) :=
  C1_amended.2 3 [some ([(0 : ℝ), 5], [0, 5]), some ([7, 2], [7, 2])] (by
    intro a b ha hb
    simp only [List.mem_cons, List.not_mem_nil, or_false] at ha hb
    rcases ha with ha | ha <;> rcases hb with hb | hb <;>
      simp [Option.some.inj ha, Option.some.inj hb])

/-- C2 (counterexample): in `surprise_manager_new.py` a request whose two
strips decode to heights 2 and 4 (non-flat edges) does NOT return the
identity permutation: the height check is commented out, so extraction
succeeds and the NCC cost-matrix build raises a broadcast error that
escapes to the caller. -/
theorem C2_counterexample :
    nccSurprise 2 [some ([(100 : ℝ), 0], [100, 0]),
      some ([100, 100, 0, 0], [100, 100, 0, 0])] = .error () ∧
    nccSurprise 2 [some ([(100 : ℝ), 0], [100, 0]),
      some ([100, 100, 0, 0], [100, 100, 0, 0])] ≠ .ok (List.range 2) := by
  have hs1 : ¬ lstd [(100 : ℝ), 0] < eps9 ℝ := by
    rw [lstd_pair, eps9_real]; norm_num
  have hs2 : ¬ lstd [(100 : ℝ), 100, 0, 0] < eps9 ℝ := by
    rw [lstd_quad, eps9_real]; norm_num
  have hnok : ¬ nccPairOk [([(100 : ℝ), 0], [100, 0]),
      ([100, 100, 0, 0], [100, 100, 0, 0])] 2 := by
    intro hok
    obtain ⟨v, hv⟩ := hok 0 (by norm_num) 1 (by norm_num) (by norm_num)
    have hv' : nccCost [(100 : ℝ), 0] [100, 100, 0, 0] = .ok v := hv
    rw [nccCost_error_of _ _ (by norm_num) (by norm_num) hs1 hs2 (by norm_num)] at hv'
    exact absurd hv' (by simp)
  have herr : nccSurprise 2 [some ([(100 : ℝ), 0], [100, 0]),
      some ([100, 100, 0, 0], [100, 100, 0, 0])] = .error () := by
    apply nccSurprise_matrix_error 2
      [some ([(100 : ℝ), 0], [100, 0]), some ([100, 100, 0, 0], [100, 100, 0, 0])]
      [([(100 : ℝ), 0], [100, 0]), ([100, 100, 0, 0], [100, 100, 0, 0])] (by norm_num) rfl
    show buildMatrixNcc [([(100 : ℝ), 0], [100, 0]), ([100, 100, 0, 0], [100, 100, 0, 0])] 2 =
      Except.error ()
    rw [buildMatrixNcc, if_neg hnok]
  refine ⟨herr, ?_⟩
  rw [herr]
  simp

/-- C2 (amended): in `surprise_manager.py` two decoded strips with different
reported heights do force the identity fallback for the whole request; in
`surprise_manager_new.py` there is no such check, and whenever extraction
succeeds while two distinct decoded strips have non-flat facing edges of
different lengths, `surprise` raises instead of returning any ordering. -/
theorem C2_amended :
    (∀ inputs : List (Option StripRGB), ∀ a b : StripRGB,
      some a ∈ inputs → some b ∈ inputs → a.h ≠ b.h →
      sadSurprise inputs = .ok (List.range inputs.length)) ∧
    (∀ fuel : ℕ, ∀ inputs : List (Option (List ℝ × List ℝ)),
      ∀ strips : List (List ℝ × List ℝ), extractGray inputs = some strips →
      ∀ a b : List ℝ × List ℝ, some a ∈ inputs → some b ∈ inputs → a ≠ b →
      ¬ lstd a.2 < eps9 ℝ → ¬ lstd b.1 < eps9 ℝ → a.2.length ≠ b.1.length →
      nccSurprise fuel inputs = .error ()) := by
  constructor
  · intro inputs a b ha hb hne
    have hne' : (some a : Option StripRGB) ≠ some b :=
      fun h => hne (congrArg StripRGB.h (Option.some.inj h))
    have hn2 : 2 ≤ inputs.length := two_mem_two_le_length inputs _ _ ha hb hne'
    cases hex : extractRGB inputs with
    | none => exact sadSurprise_extract_none inputs hn2 hex
    | some sh =>
      exfalso
      obtain ⟨strips, hgt⟩ := sh
      obtain ⟨_, hmem, _, hall, _⟩ := extractRGBAux_spec inputs none [] strips hgt hex
      have hah : a.h = hgt := by
        rcases hmem a (hall a ha) with h | h
        · exact absurd h (List.not_mem_nil a)
        · exact h.2
      have hbh : b.h = hgt := by
        rcases hmem b (hall b hb) with h | h
        · exact absurd h (List.not_mem_nil b)
        · exact h.2
      exact hne (hah.trans hbh.symm)
  · intro fuel inputs strips hex a b ha hb hab hsa hsb hlen
    have hne' : (some a : Option (List ℝ × List ℝ)) ≠ some b :=
      fun h => hab (Option.some.inj h)
    have hn2 : 2 ≤ inputs.length := two_mem_two_le_length inputs _ _ ha hb hne'
    obtain ⟨hslen, _, hall⟩ := extractGray_spec inputs strips hex
    obtain ⟨i, hi, hia⟩ := List.getElem_of_mem (hall a ha)
    obtain ⟨j, hj, hjb⟩ := List.getElem_of_mem (hall b hb)
    have hij : i ≠ j := by
      intro h
      subst h
      exact hab (hia.symm.trans hjb)
    have hnok : ¬ nccPairOk strips inputs.length := by
      intro hok
      obtain ⟨v, hv⟩ := hok i (by omega) j (by omega) hij
      rw [List.getD_eq_getElem strips ([], []) hi, hia,
        List.getD_eq_getElem strips ([], []) hj, hjb] at hv
      rw [nccCost_error_of a.2 b.1 (nonflat_nonempty a.2 hsa) (nonflat_nonempty b.1 hsb)
        hsa hsb hlen] at hv
      exact absurd hv (by simp)
    apply nccSurprise_matrix_error fuel inputs strips hn2 hex
    rw [buildMatrixNcc, if_neg hnok]

/-- Witness for C2 at two decoded strips reporting heights 2 and 3. -/
theorem C2_witness :
    sadSurprise [some (⟨[(0, 0, 0)], [(0, 0, 0)], 2⟩ : StripRGB),
      some ⟨[(1, 1, 1)], [(1, 1, 1)], 3⟩] = .ok (List.range 2) :=
  C2_amended.1 [some (⟨[(0, 0, 0)], [(0, 0, 0)], 2⟩ : StripRGB),
      some ⟨[(1, 1, 1)], [(1, 1, 1)], 3⟩]
    ⟨[(0, 0, 0)], [(0, 0, 0)], 2⟩ ⟨[(1, 1, 1)], [(1, 1, 1)], 3⟩
    (List.mem_cons_self _ _) (List.mem_cons_of_mem _ (List.mem_cons_self _ _)) (by decide)
